import Mathlib

set_option maxHeartbeats 1000000

/-!
Shallow embedding of the `FileEnumerator` cascading-configuration resolver
(`lib/lookup/file-enumerator.js`) and of the `ExtractedConfig` compat view
(`lib/lookup/extracted-config.js`).

Paths: an absolute file-system path is modelled as its list of name
components ordered leaf first: `/d/a.js` is `["a.js", "d"]` and the root
`/` is `[]`.  `path.dirname` then drops the head component, and the
ancestor directories of a path are exactly its suffixes.

Object identity: JavaScript `ConfigArray` objects are compared by
reference (`Map` keys, `WeakMap` keys, caller-visible identity).  A config
array is therefore modelled as a value `CAObj` carrying a numeric identity
`id`; fresh identities are drawn from a counter `nextId` threaded through
the state, so equality of `id`s models reference equality.  Mutation of an
existing array (`Array#unshift`) keeps its `id`; operations returning a
new array (`Array#concat`, a factory load) allocate a new one.
-/

/-- An absolute path, as its components ordered leaf first (`/` is `[]`). -/
abbrev FsPath := List String

/-- Node's `path.dirname` on an absolute path: drop the leaf component; the
root is its own dirname (`path.dirname("/") === "/"`). -/
def dirname : FsPath → FsPath
  | [] => []
  | _ :: d => d

/-- One layer of configuration, as far as the enumerator inspects it: the
diagnostic `name` and the source `filePath` (the empty string for synthetic
layers such as `"BaseConfig"`, `"CLIOptions"` and `"--rulesdir"`). -/
structure ConfigElement where
  name : String
  filePath : String
deriving DecidableEq, Repr

/-- A `ConfigArray` object: its ordered element list plus its object
identity (see the module comment). -/
structure CAObj where
  id : Nat
  elems : List ConfigElement
deriving DecidableEq, Repr

/-- Modelled from the spec: the result of the external
`ConfigArrayFactory#loadOnDirectory` collaborator (`config-array-factory.js`
is outside this repository's core; its contract is spec section 6).
`.ok elems root` models a returned config array with elements `elems` whose
`root` getter is `root` (an empty `elems` when no config file is found);
`.err code` models a thrown error carrying `error.code = code`. -/
inductive LoadResult where
  | ok (elems : List ConfigElement) (root : Bool)
  | err (code : String)
deriving DecidableEq, Repr

/-- The external collaborators of the enumerator: the factory's
directory-scan (`loadOnDirectory`), `os.homedir()` (`home`), the
`validateConfigArray` validator as a predicate (`validateOk`, `true` when
validation passes), and the `is-glob` library (`isGlobFn`). -/
structure Env where
  loadOnDirectory : FsPath → LoadResult
  home : FsPath
  validateOk : List ConfigElement → Bool
  isGlobFn : String → Bool

/-- The internal slots of a `FileEnumerator` that the modelled operations
read: the retained source data used to rebuild the base and CLI arrays on
`clearCache` (`baseConfigData`, `cliConfigData` — modelled, from the spec's
factory contract, as the element lists the deterministic factory `create`
materializes from them), the current base and CLI config arrays, and the
`useEslintrc`, `globInputPaths` and `cwd` options. -/
structure Slots where
  baseConfigData : List ConfigElement
  cliConfigData : List ConfigElement
  baseConfigArray : CAObj
  cliConfigArray : CAObj
  useEslintrc : Bool
  globInputPaths : Bool
  cwd : FsPath
deriving DecidableEq, Repr

/-- The mutable state of a `FileEnumerator`: the fresh-identity counter,
the per-directory config cache (`configCache : Map<string, ConfigArray>`)
and the finalize cache (`finalizeCache : WeakMap<ConfigArray, ConfigArray>`,
keyed by the raw array's identity). -/
structure EnumState where
  nextId : Nat
  configCache : List (FsPath × CAObj)
  finalizeCache : List (Nat × CAObj)
deriving DecidableEq, Repr

/-- Lookup in an association list modelling `Map#get` / `WeakMap#get`;
`set` prepends, so the head is the most recent binding for a key. -/
def alistGet {α β : Type} [DecidableEq α] : List (α × β) → α → Option β
  | [], _ => none
  | (k, v) :: rest, key => if k = key then some v else alistGet rest key

/-- The errors the enumerator can surface: its own three error classes
(`NoFilesFoundError`, `AllFilesIgnoredError`, `ConfigurationNotFoundError`)
plus a loader error carrying `error.code` propagated from the factory and a
`validateConfigArray` failure. -/
inductive JsError where
  | noFilesFound (pattern : String) (globDisabled : Bool)
  | allFilesIgnored (pattern : String)
  | configurationNotFound (directoryPath : FsPath)
  | loader (code : String)
  | validation
deriving DecidableEq, Repr

/-- `FileEnumerator#_loadConfigInAncestorsRecursive`.  Walks the ancestor
directories of `filePath`, loading and caching a config array per
directory.  The match on `filePath` realizes the source's
`directoryPath = path.dirname(filePath)` together with its
"considered root" test `!directoryPath || directoryPath === filePath`:
for an absolute path that test holds exactly when the path is the
filesystem root (`[]`, where `dirname` is the identity; `dirname` never
yields the empty string for an absolute path). -/
def loadConfigInAncestorsRecursive (env : Env) (s : Slots) :
    FsPath → EnumState → EnumState × Except JsError CAObj
  | filePath, st =>
    if s.useEslintrc = false then
      (st, .ok s.baseConfigArray)
    else
      match filePath with
      | [] =>
        match alistGet st.configCache [] with
        | some cached => (st, .ok cached)
        | none =>
          ({ st with configCache := ([], s.baseConfigArray) :: st.configCache },
           .ok s.baseConfigArray)
      | _ :: directoryPath =>
        match alistGet st.configCache directoryPath with
        | some cached => (st, .ok cached)
        | none =>
          if directoryPath = env.home ∧ s.cwd ≠ env.home then
            ({ st with
               configCache := (directoryPath, s.baseConfigArray) :: st.configCache },
             .ok s.baseConfigArray)
          else
            match env.loadOnDirectory directoryPath with
            | .err code =>
              if code = "EACCES" then
                ({ st with
                   configCache := (directoryPath, s.baseConfigArray) :: st.configCache },
                 .ok s.baseConfigArray)
              else
                (st, .error (.loader code))
            | .ok elems root =>
              if elems.length > 0 ∧ root = true then
                ({ st with
                    nextId := st.nextId + 1
                    configCache :=
                      (directoryPath, (⟨st.nextId, elems⟩ : CAObj)) :: st.configCache },
                 .ok ⟨st.nextId, elems⟩)
              else if elems.length > 0 then
                match loadConfigInAncestorsRecursive env s directoryPath
                    { st with nextId := st.nextId + 1 } with
                | (st2, .error e) => (st2, .error e)
                | (st2, .ok parent) =>
                  ({ st2 with
                     configCache :=
                       (directoryPath, (⟨st.nextId, parent.elems ++ elems⟩ : CAObj))
                         :: st2.configCache },
                   .ok ⟨st.nextId, parent.elems ++ elems⟩)
              else
                match loadConfigInAncestorsRecursive env s directoryPath
                    { st with nextId := st.nextId + 1 } with
                | (st2, .error e) => (st2, .error e)
                | (st2, .ok parent) =>
                  ({ st2 with
                     configCache := (directoryPath, parent) :: st2.configCache },
                   .ok parent)

/-- `FileEnumerator#_loadConfigInAncestors` (a direct delegation in the
source). -/
def loadConfigInAncestors (env : Env) (s : Slots) (filePath : FsPath)
    (st : EnumState) : EnumState × Except JsError CAObj :=
  loadConfigInAncestorsRecursive env s filePath st

/-- The tail of `FileEnumerator#_finalizeConfigArray` after the
personal-config step: append the CLI array when non-empty (`Array#concat`
returns a new object), validate, store in the finalize cache under the raw
array's identity `rawId`, then fail `ConfigurationNotFound` when
`useEslintrc` is set and the finalized array is empty. -/
def finalizeTail (env : Env) (s : Slots) (rawId : Nat) (f1 : CAObj)
    (directoryPath : FsPath) (st : EnumState) : EnumState × Except JsError CAObj :=
  let stf2 :=
    if s.cliConfigArray.elems.length > 0 then
      (({ st with nextId := st.nextId + 1 } : EnumState),
       (⟨st.nextId, f1.elems ++ s.cliConfigArray.elems⟩ : CAObj))
    else (st, f1)
  if env.validateOk stf2.2.elems = true then
    let st3 :=
      { stf2.1 with finalizeCache := (rawId, stf2.2) :: stf2.1.finalizeCache }
    if s.useEslintrc = true ∧ stf2.2.elems = [] then
      (st3, .error (.configurationNotFound directoryPath))
    else
      (st3, .ok stf2.2)
  else
    (stf2.1, .error .validation)

/-- `FileEnumerator#_finalizeConfigArray`.  Memoized by the identity of
`configArray`; on a miss it loads the personal config from the home
directory when neither the raw array nor the CLI array carries an element
with a non-empty `filePath` and `useEslintrc` is set (per the factory
contract, a directory load with a `parent` yields the parent object itself
when no config file is found, and a new object chaining the parent
otherwise), then runs `finalizeTail`.  The emptiness check runs on cache
hits as well. -/
def finalizeConfigArray (env : Env) (s : Slots) (configArray : CAObj)
    (directoryPath : FsPath) (st : EnumState) : EnumState × Except JsError CAObj :=
  match alistGet st.finalizeCache configArray.id with
  | some final =>
    if s.useEslintrc = true ∧ final.elems = [] then
      (st, .error (.configurationNotFound directoryPath))
    else
      (st, .ok final)
  | none =>
    if s.useEslintrc = true
        ∧ configArray.elems.all (fun c => c.filePath == "") = true
        ∧ s.cliConfigArray.elems.all (fun c => c.filePath == "") = true then
      match env.loadOnDirectory env.home with
      | .err code => (st, .error (.loader code))
      | .ok personalElems _ =>
        if personalElems.length = 0 then
          finalizeTail env s configArray.id configArray directoryPath st
        else
          finalizeTail env s configArray.id
            ⟨st.nextId, configArray.elems ++ personalElems⟩ directoryPath
            { st with nextId := st.nextId + 1 }
    else
      finalizeTail env s configArray.id configArray directoryPath st

/-- `FileEnumerator#getConfigArrayForFile` for an already absolute
`filePath` (the source first computes `path.resolve(cwd, filePath)`, which
is the identity on absolute paths): resolve the ancestors, then finalize
against `path.dirname` of the path. -/
def getConfigArrayForFile (env : Env) (s : Slots) (filePath : FsPath)
    (st : EnumState) : EnumState × Except JsError CAObj :=
  match loadConfigInAncestors env s filePath st with
  | (st1, .error e) => (st1, .error e)
  | (st1, .ok config) => finalizeConfigArray env s config (dirname filePath) st1

/-- The `flag` of a `FileEntry` (`NONE`, `IGNORED_SILENTLY`, `IGNORED`). -/
inductive EntryFlag where
  | NONE
  | IGNORED_SILENTLY
  | IGNORED
deriving DecidableEq, Repr

/-- An internal `FileEntry` as yielded by `FileEnumerator#_iterateFiles`. -/
structure FileEntry where
  filePath : FsPath
  config : CAObj
  flag : EntryFlag
deriving DecidableEq, Repr

/-- A caller-facing `FileAndConfig` as yielded by
`FileEnumerator#iterateFiles`. -/
structure FileAndConfig where
  filePath : FsPath
  config : CAObj
  ignored : Bool
deriving DecidableEq, Repr

/-- The inner per-pattern loop of `FileEnumerator#iterateFiles` over the
entries produced by `this._iterateFiles(pattern)`: thread the
deduplication set `seen`, the yielded entries `acc` and the two booleans
`foundRegardlessOfIgnored` / `found`; a throw from `_finalizeConfigArray`
aborts the iteration (the `seen` insertion happens before the finalize
call, as in the source). -/
def iterateFilesEntries (env : Env) (s : Slots) :
    List FileEntry → EnumState → List FsPath → List FileAndConfig → Bool → Bool →
    EnumState × List FsPath × List FileAndConfig × Bool × Bool × Option JsError
  | [], st, seen, acc, foundR, found => (st, seen, acc, foundR, found, none)
  | e :: rest, st, seen, acc, _, found =>
    if e.flag = EntryFlag.IGNORED_SILENTLY then
      iterateFilesEntries env s rest st seen acc true found
    else
      if e.filePath ∈ seen then
        iterateFilesEntries env s rest st seen acc true true
      else
        match finalizeConfigArray env s e.config (dirname e.filePath) st with
        | (st1, .error err) => (st1, e.filePath :: seen, acc, true, true, some err)
        | (st1, .ok final) =>
          iterateFilesEntries env s rest st1 (e.filePath :: seen)
            (acc ++ [⟨e.filePath, final, e.flag = EntryFlag.IGNORED⟩]) true true

/-- The per-pattern driver of `FileEnumerator#iterateFiles`: skip empty
patterns, drain the pattern's entries, then raise `NoFilesFound` (with
`globDisabled` true exactly when `globInputPaths` is off and the pattern is
a glob) when nothing was found at all, and `AllFilesIgnored` when
everything found was ignored silently. -/
def iterateFilesPatterns (env : Env) (s : Slots) (iter : String → List FileEntry) :
    List String → EnumState → List FsPath → List FileAndConfig →
    EnumState × List FileAndConfig × Option JsError
  | [], st, _, acc => (st, acc, none)
  | pattern :: rest, st, seen, acc =>
    if pattern = "" then
      iterateFilesPatterns env s iter rest st seen acc
    else
      match iterateFilesEntries env s (iter pattern) st seen acc false false with
      | (st1, _, acc1, _, _, some err) => (st1, acc1, some err)
      | (st1, seen1, acc1, foundR, found, none) =>
        if foundR = false then
          (st1, acc1,
           some (.noFilesFound pattern (!s.globInputPaths && env.isGlobFn pattern)))
        else if found = false then
          (st1, acc1, some (.allFilesIgnored pattern))
        else
          iterateFilesPatterns env s iter rest st1 seen1 acc1

/-- `FileEnumerator#iterateFiles`, with `this._iterateFiles` — the
glob/directory/file dispatch, which walks the real filesystem — abstracted
as the entry enumeration `iter`.  The result collects the yielded
`FileAndConfig`s together with the error, if any, that aborted the
generator. -/
def iterateFiles (env : Env) (s : Slots) (iter : String → List FileEntry)
    (patterns : List String) (st : EnumState) :
    EnumState × List FileAndConfig × Option JsError :=
  iterateFilesPatterns env s iter patterns st [] []

/-- Modelled from the spec: `createBaseConfigArray` materializes the
retained base config data through the external factory's `create` (a
deterministic function of the data, here kept as the element list itself)
into a fresh `ConfigArray` object.  The `--rulesdir` pseudo-plugin element,
when present, is part of that data. -/
def createBaseConfigArray (s : Slots) (st : EnumState) : CAObj × EnumState :=
  (⟨st.nextId, s.baseConfigData⟩, { st with nextId := st.nextId + 1 })

/-- Modelled from the spec: `createCLIConfigArray` materializes the
retained CLI config data (including any `--config` file elements) through
the external factory into a fresh `ConfigArray` object. -/
def createCLIConfigArray (s : Slots) (st : EnumState) : CAObj × EnumState :=
  (⟨st.nextId, s.cliConfigData⟩, { st with nextId := st.nextId + 1 })

/-- `FileEnumerator#clearCache`: rebuild the base and CLI config arrays
from the retained source data and clear the per-directory config cache.
The finalize cache (`WeakMap`) is not touched by the source. -/
def clearCache (s : Slots) (st : EnumState) : Slots × EnumState :=
  let b := createBaseConfigArray s st
  let c := createCLIConfigArray s b.2
  ({ s with baseConfigArray := b.1, cliConfigArray := c.1 },
   { c.2 with configCache := [] })

/-- The `FileEnumerator` constructor: build the base and CLI arrays and
start with empty caches. -/
def mkEnumerator (baseConfigData cliConfigData : List ConfigElement)
    (useEslintrc globInputPaths : Bool) (cwd : FsPath) : Slots × EnumState :=
  let st0 : EnumState := ⟨0, [], []⟩
  let s0 : Slots :=
    { baseConfigData := baseConfigData
      cliConfigData := cliConfigData
      baseConfigArray := ⟨0, []⟩
      cliConfigArray := ⟨0, []⟩
      useEslintrc := useEslintrc
      globInputPaths := globInputPaths
      cwd := cwd }
  let b := createBaseConfigArray s0 st0
  let c := createCLIConfigArray s0 b.2
  ({ s0 with baseConfigArray := b.1, cliConfigArray := c.1 }, c.2)

/-- A parser or plugin descriptor (`ConfigDependency`), as far as
`ExtractedConfig` inspects it: its id and resolved file path. -/
structure ConfigDependency where
  id : String
  filePath : String
deriving DecidableEq, Repr

/-- `ExtractedConfig` (`lib/lookup/extracted-config.js`): the flattened
configuration for one file.  The free-form object fields are modelled as
association lists preserving JavaScript string-key insertion order. -/
structure ExtractedConfig where
  env : List (String × Bool)
  globals : List (String × String)
  parser : Option ConfigDependency
  parserOptions : List (String × String)
  plugins : List (String × ConfigDependency)
  processor : Option String
  rules : List (String × List Nat)
  settings : List (String × String)
deriving DecidableEq, Repr

/-- The result shape of `toCompatibleObjectAsConfigFileContent`: the
`processor` field is absent (the source destructures it away), `parser` is
the descriptor's file path or the falsy `null` (modelled by `Option`), and
`plugins` is a plain list of plugin ids. -/
structure CompatConfigFileContent where
  env : List (String × Bool)
  globals : List (String × String)
  parser : Option String
  parserOptions : List (String × String)
  plugins : List String
  rules : List (String × List Nat)
  settings : List (String × String)
deriving DecidableEq, Repr

/-- `ExtractedConfig#toCompatibleObjectAsConfigFileContent`: spread `this`
minus `processor`; `config.parser = config.parser && config.parser.filePath`
(`none` models the falsy result); `config.plugins =
Object.keys(config.plugins).reverse()`. -/
def toCompatibleObjectAsConfigFileContent (c : ExtractedConfig) :
    CompatConfigFileContent :=
  { env := c.env
    globals := c.globals
    parser := c.parser.map fun p => p.filePath
    parserOptions := c.parserOptions
    plugins := (c.plugins.map Prod.fst).reverse
    rules := c.rules
    settings := c.settings }

/-- Claim C9: `toCompatibleObjectAsConfigFileContent()` replaces the parser
with its file path when a parser descriptor is present and a falsy value
(`none`) otherwise, lists the plugin ids in the reverse of their insertion
order, and leaves `env`, `globals`, `parserOptions`, `rules` and `settings`
unchanged; its result type carries no `processor` field. -/
theorem extractedConfig_toCompat_spec (c : ExtractedConfig) :
    ((c.parser = none → (toCompatibleObjectAsConfigFileContent c).parser = none)
      ∧ ∀ p, c.parser = some p →
          (toCompatibleObjectAsConfigFileContent c).parser = some p.filePath)
    ∧ (toCompatibleObjectAsConfigFileContent c).plugins
        = (c.plugins.map Prod.fst).reverse
    ∧ (toCompatibleObjectAsConfigFileContent c).env = c.env
    ∧ (toCompatibleObjectAsConfigFileContent c).globals = c.globals
    ∧ (toCompatibleObjectAsConfigFileContent c).parserOptions = c.parserOptions
    ∧ (toCompatibleObjectAsConfigFileContent c).rules = c.rules
    ∧ (toCompatibleObjectAsConfigFileContent c).settings = c.settings := by
  refine ⟨⟨fun h => ?_, fun p h => ?_⟩, rfl, rfl, rfl, rfl, rfl, rfl⟩
  · simp [toCompatibleObjectAsConfigFileContent, h]
  · simp [toCompatibleObjectAsConfigFileContent, h]

/-! Concrete instances used by the witness theorems below. -/

/-- A config element loaded from `/d/.eslintrc`. -/
def elemD : ConfigElement := ⟨"d-cfg", "/d/.eslintrc"⟩

/-- An environment whose factory finds one config file in `/d` and nothing
anywhere else. -/
def envW : Env :=
  { loadOnDirectory := fun p => if p = ["d"] then .ok [elemD] false else .ok [] false
    home := ["home"]
    validateOk := fun _ => true
    isGlobFn := fun _ => false }

/-- Slots of an enumerator with empty base and CLI data and `cwd = /d`. -/
def sW : Slots :=
  { baseConfigData := []
    cliConfigData := []
    baseConfigArray := ⟨0, []⟩
    cliConfigArray := ⟨1, []⟩
    useEslintrc := true
    globInputPaths := true
    cwd := ["d"] }

/-- The fresh state after constructing `sW` (identities 0 and 1 taken). -/
def stW : EnumState := ⟨2, [], []⟩

/-- The array `/d/a.js` resolves to under `envW`/`sW`. -/
def rW : CAObj := ⟨2, [elemD]⟩

/-- The state after `getConfigArrayForFile envW sW ["a", "d"] stW`. -/
def st1W : EnumState :=
  ⟨4, [(["d"], rW), ([], ⟨0, []⟩), ([], ⟨0, []⟩)], [(2, rW)]⟩

/-- The slots after `clearCache sW st1W`: base and CLI rebuilt as fresh
objects. -/
def s2W : Slots :=
  { sW with baseConfigArray := ⟨4, []⟩, cliConfigArray := ⟨5, []⟩ }

/-- The state after `clearCache sW st1W`: per-directory cache cleared, the
finalize cache retained. -/
def st2W : EnumState := ⟨6, [], [(2, rW)]⟩

/-- The array `/d/a.js` resolves to after the cache clear: same elements,
fresh identity. -/
def r2W : CAObj := ⟨6, [elemD]⟩

/-- The state after the post-clear `getConfigArrayForFile`. -/
def st3W : EnumState :=
  ⟨8, [(["d"], r2W), ([], ⟨4, []⟩), ([], ⟨4, []⟩)], [(6, r2W), (2, rW)]⟩

/-- A state with a non-empty per-directory cache and a non-empty finalize
cache, exercising `clearCache`. -/
def stCX : EnumState := ⟨5, [(["d"], ⟨2, []⟩)], [(0, ⟨0, []⟩)]⟩

/-- A `root: true` config element at `/r`. -/
def elemR : ConfigElement := ⟨"r-cfg", "/r/.eslintrc"⟩

/-- A config element at `/r/s`. -/
def elemS : ConfigElement := ⟨"s-cfg", "/r/s/.eslintrc"⟩

/-- An environment with a `root: true` config at `/r` and a plain config
at `/r/s`. -/
def env4 : Env :=
  { loadOnDirectory := fun p =>
      if p = ["r"] then .ok [elemR] true
      else if p = ["s", "r"] then .ok [elemS] false
      else .ok [] false
    home := ["home"]
    validateOk := fun _ => true
    isGlobFn := fun _ => false }

/-- An environment whose loader denies access to `/d`. -/
def env8 : Env :=
  { envW with loadOnDirectory := fun p =>
      if p = ["d"] then .err "EACCES" else .ok [] false }

/-- An environment whose loader fails on the home directory. -/
def env6 : Env :=
  { envW with loadOnDirectory := fun _ => .err "EHOME" }

/-- A raw config array with no file-backed element, for the personal-config
witness. -/
def raw6 : CAObj := ⟨9, []⟩

/-- A raw config array whose identity is bound, empty, in `st7W`. -/
def raw7 : CAObj := ⟨5, []⟩

/-- A state whose finalize cache binds `raw7` to an empty finalized
array. -/
def st7W : EnumState := ⟨8, [], [(5, ⟨6, []⟩)]⟩

/-- A `root: true` config element at the filesystem root. -/
def elemRoot : ConfigElement := ⟨"root-cfg", "/.eslintrc"⟩

/-- A file-backed base config element. -/
def elemBase : ConfigElement := ⟨"base", "/base"⟩

/-- An environment with a `root: true` config at the filesystem root. -/
def envX : Env :=
  { loadOnDirectory := fun p => if p = [] then .ok [elemRoot] true else .ok [] false
    home := ["home"]
    validateOk := fun _ => true
    isGlobFn := fun _ => false }

/-- Slots with a non-empty, file-backed base config. -/
def sX : Slots :=
  { baseConfigData := [elemBase]
    cliConfigData := []
    baseConfigArray := ⟨0, [elemBase]⟩
    cliConfigArray := ⟨1, []⟩
    useEslintrc := true
    globInputPaths := true
    cwd := ["d"] }

/-- A fresh state for the `envX`/`sX` instance. -/
def stX : EnumState := ⟨2, [], []⟩

/-- An entry enumeration that finds nothing for any pattern. -/
def iterEmptyW : String → List FileEntry := fun _ => []

/-- A concrete extracted config with a parser, two plugins and a
processor. -/
def ecW : ExtractedConfig :=
  { env := [("es6", true)]
    globals := []
    parser := some ⟨"p", "/p.js"⟩
    parserOptions := []
    plugins := [("a", ⟨"a", "/a"⟩), ("b", ⟨"b", "/b"⟩)]
    processor := some "proc"
    rules := []
    settings := [] }

/-- A successful association-list lookup is a membership. -/
theorem alistGet_mem {α β : Type} [DecidableEq α] :
    ∀ (l : List (α × β)) (k : α) (v : β), alistGet l k = some v → (k, v) ∈ l := by
  intro l
  induction l with
  | nil => intro k v h; simp [alistGet] at h
  | cons p rest ih =>
    intro k v h
    obtain ⟨k', v'⟩ := p
    simp only [alistGet] at h
    by_cases hk : k' = k
    · subst hk
      have hv : v' = v := by simpa [alistGet] using h
      subst hv
      exact List.mem_cons_self _ _
    · rw [if_neg hk] at h
      exact List.mem_cons_of_mem _ (ih k v h)

/-- A lookup misses when the key is at least `n` and all stored keys are
below `n`. -/
theorem alistGet_none_of_lt {β : Type} :
    ∀ (l : List (Nat × β)) (n k : Nat),
      (∀ k' v, (k', v) ∈ l → k' < n) → n ≤ k → alistGet l k = none := by
  intro l
  induction l with
  | nil => intro n k _ _; rfl
  | cons p rest ih =>
    intro n k hk hle
    obtain ⟨k', v'⟩ := p
    have hlt : k' < n := hk k' v' (List.mem_cons_self _ _)
    have : k' ≠ k := by omega
    simp only [alistGet, if_neg this]
    exact ih n k (fun a b hab => hk a b (List.mem_cons_of_mem _ hab)) hle

/-- With `useEslintrc` on, a per-directory cache hit is returned as is,
with the state untouched. -/
theorem walk_hit (env : Env) (s : Slots) (fp : FsPath) (st : EnumState) (ca : CAObj)
    (hu : s.useEslintrc = true)
    (h : alistGet st.configCache (dirname fp) = some ca) :
    loadConfigInAncestorsRecursive env s fp st = (st, .ok ca) := by
  cases fp with
  | nil =>
    simp only [dirname] at h
    simp [loadConfigInAncestorsRecursive, hu, h]
  | cons x d =>
    simp only [dirname] at h
    simp [loadConfigInAncestorsRecursive, hu, h]

/-- With `useEslintrc` on, a successful ancestor walk leaves the walked
directory bound, in the per-directory cache, to the very array it
returned. -/
theorem walk_success_caches (env : Env) (s : Slots) (fp : FsPath)
    (st st' : EnumState) (r : CAObj) (hu : s.useEslintrc = true)
    (h : loadConfigInAncestorsRecursive env s fp st = (st', .ok r)) :
    alistGet st'.configCache (dirname fp) = some r := by
  cases fp with
  | nil =>
    simp only [loadConfigInAncestorsRecursive, hu] at h
    simp only [Bool.true_eq_false, if_false] at h
    split at h
    · next heq =>
      obtain ⟨rfl, h2⟩ := Prod.mk.injEq .. ▸ h
      cases h2
      simpa [dirname] using heq
    · next heq =>
      obtain ⟨h1, h2⟩ := Prod.mk.injEq .. ▸ h
      cases h2
      subst h1
      simp [dirname, alistGet]
  | cons x d =>
    simp only [loadConfigInAncestorsRecursive, hu] at h
    simp only [Bool.true_eq_false, if_false] at h
    simp only [dirname]
    split at h
    · next heq =>
      obtain ⟨h1, h2⟩ := Prod.mk.injEq .. ▸ h
      cases h2
      subst h1
      exact heq
    · next heq =>
      split at h
      · obtain ⟨h1, h2⟩ := Prod.mk.injEq .. ▸ h
        cases h2
        subst h1
        simp [alistGet]
      · split at h
        · next code hcode =>
          split at h
          · obtain ⟨h1, h2⟩ := Prod.mk.injEq .. ▸ h
            cases h2
            subst h1
            simp [alistGet]
          · obtain ⟨h1, h2⟩ := Prod.mk.injEq .. ▸ h
            cases h2
        · next elems root hload =>
          split at h
          · obtain ⟨h1, h2⟩ := Prod.mk.injEq .. ▸ h
            cases h2
            subst h1
            simp [alistGet]
          · split at h
            · split at h
              · simp at h
              · obtain ⟨h1, h2⟩ := Prod.mk.injEq .. ▸ h
                cases h2
                subst h1
                simp [alistGet]
            · split at h
              · simp at h
              · obtain ⟨h1, h2⟩ := Prod.mk.injEq .. ▸ h
                cases h2
                subst h1
                simp [alistGet]

/-- `finalizeTail` never touches the per-directory config cache. -/
theorem finalizeTail_preserves_configCache (env : Env) (s : Slots) (rid : Nat)
    (f1 : CAObj) (d : FsPath) (st st' : EnumState) (r : Except JsError CAObj)
    (h : finalizeTail env s rid f1 d st = (st', r)) :
    st'.configCache = st.configCache := by
  simp only [finalizeTail] at h
  repeat' split at h
  all_goals (obtain ⟨h1, h2⟩ := Prod.mk.injEq .. ▸ h; subst h1; rfl)

/-- `_finalizeConfigArray` never touches the per-directory config cache. -/
theorem finalize_preserves_configCache (env : Env) (s : Slots) (ca : CAObj)
    (d : FsPath) (st st' : EnumState) (r : Except JsError CAObj)
    (h : finalizeConfigArray env s ca d st = (st', r)) :
    st'.configCache = st.configCache := by
  simp only [finalizeConfigArray] at h
  repeat' split at h
  all_goals
    first
      | (obtain ⟨h1, h2⟩ := Prod.mk.injEq .. ▸ h; subst h1; rfl)
      | exact (finalizeTail_preserves_configCache _ _ _ _ _ _ _ _ h).trans rfl

/-- A successful `finalizeTail` leaves the finalize cache binding `rid` to
the returned array. -/
theorem finalizeTail_success_caches (env : Env) (s : Slots) (rid : Nat)
    (f1 : CAObj) (d : FsPath) (st st' : EnumState) (r : CAObj)
    (h : finalizeTail env s rid f1 d st = (st', .ok r)) :
    alistGet st'.finalizeCache rid = some r := by
  simp only [finalizeTail] at h
  repeat' split at h
  all_goals
    first
      | (simp at h; done)
      | (obtain ⟨h1, h2⟩ := Prod.mk.injEq .. ▸ h; cases h2; subst h1; simp [alistGet])

/-- A successful `_finalizeConfigArray` leaves the finalize cache binding
the raw array's identity to the returned finalized array. -/
theorem finalize_success_caches (env : Env) (s : Slots) (ca : CAObj)
    (d : FsPath) (st st' : EnumState) (r : CAObj)
    (h : finalizeConfigArray env s ca d st = (st', .ok r)) :
    alistGet st'.finalizeCache ca.id = some r := by
  simp only [finalizeConfigArray] at h
  repeat' split at h
  all_goals
    first
      | (simp at h; done)
      | (obtain ⟨h1, h2⟩ := Prod.mk.injEq .. ▸ h; cases h2; subst h1;
         first | simp [alistGet] | assumption)
      | exact finalizeTail_success_caches _ _ _ _ _ _ _ _ h

/-- With `useEslintrc` on, an array successfully returned by
`finalizeTail` is non-empty. -/
theorem finalizeTail_success_nonempty (env : Env) (s : Slots) (rid : Nat)
    (f1 : CAObj) (d : FsPath) (st st' : EnumState) (r : CAObj)
    (hu : s.useEslintrc = true)
    (h : finalizeTail env s rid f1 d st = (st', .ok r)) :
    r.elems ≠ [] := by
  simp only [finalizeTail] at h
  repeat' split at h
  all_goals
    first
      | (simp at h; done)
      | (obtain ⟨h1, h2⟩ := Prod.mk.injEq .. ▸ h; cases h2; subst h1;
         intro hemp; simp_all)

/-- With `useEslintrc` on, a successfully finalized array is non-empty
(the emptiness check would have thrown `ConfigurationNotFound`). -/
theorem finalize_success_nonempty (env : Env) (s : Slots) (ca : CAObj)
    (d : FsPath) (st st' : EnumState) (r : CAObj)
    (hu : s.useEslintrc = true)
    (h : finalizeConfigArray env s ca d st = (st', .ok r)) :
    r.elems ≠ [] := by
  simp only [finalizeConfigArray] at h
  repeat' split at h
  all_goals
    first
      | (simp at h; done)
      | (obtain ⟨h1, h2⟩ := Prod.mk.injEq .. ▸ h; cases h2; subst h1;
         intro hemp; simp_all)
      | exact finalizeTail_success_nonempty _ _ _ _ _ _ _ _ hu h

/-- `finalizeTail` only fails with a validation error or
`ConfigurationNotFound` on its own directory argument. -/
theorem finalizeTail_error_kinds (env : Env) (s : Slots) (rid : Nat)
    (f1 : CAObj) (d : FsPath) (st st' : EnumState) (e : JsError)
    (h : finalizeTail env s rid f1 d st = (st', .error e)) :
    e = .validation ∨ e = .configurationNotFound d := by
  simp only [finalizeTail] at h
  repeat' split at h
  all_goals
    first
      | (simp at h; done)
      | (obtain ⟨h1, h2⟩ := Prod.mk.injEq .. ▸ h; cases h2; subst h1; simp)

/-- `_finalizeConfigArray` only fails with a loader error, a validation
error, or `ConfigurationNotFound`; never with the iteration errors. -/
theorem finalize_error_kinds (env : Env) (s : Slots) (ca : CAObj)
    (d : FsPath) (st st' : EnumState) (e : JsError)
    (h : finalizeConfigArray env s ca d st = (st', .error e)) :
    (∃ c, e = .loader c) ∨ e = .validation ∨ ∃ d', e = .configurationNotFound d' := by
  simp only [finalizeConfigArray] at h
  repeat' split at h
  all_goals
    first
      | (simp at h; done)
      | (obtain ⟨h1, h2⟩ := Prod.mk.injEq .. ▸ h; cases h2; subst h1; simp)
      | ((rcases finalizeTail_error_kinds _ _ _ _ _ _ _ _ h with h1 | h1) <;>
          first
            | exact Or.inr (Or.inl h1)
            | exact Or.inr (Or.inr ⟨d, h1⟩))

/-- With `useEslintrc` off, the ancestor walk immediately returns the base
config array and leaves the state untouched. -/
theorem walk_no_eslintrc (env : Env) (s : Slots) (fp : FsPath) (st : EnumState)
    (hu : s.useEslintrc = false) :
    loadConfigInAncestorsRecursive env s fp st = (st, .ok s.baseConfigArray) := by
  cases fp <;> simp [loadConfigInAncestorsRecursive, hu]

/-- Claim C1: for two file paths with the same dirname `d` and no
intervening `clearCache()`, `getConfigArrayForFile` returns the very same
`ConfigArray` object (identity included) for both, because the
per-directory cache entry for `d` and the identity-keyed finalize cache
entry both hit on the second call; the second call leaves the state
untouched. -/
theorem getConfigArrayForFile_same_dir_shared (env : Env) (s : Slots)
    (p1 p2 : FsPath) (st st1 st2 : EnumState) (r1 r2 : CAObj)
    (hd : dirname p1 = dirname p2)
    (h1 : getConfigArrayForFile env s p1 st = (st1, .ok r1))
    (h2 : getConfigArrayForFile env s p2 st1 = (st2, .ok r2)) :
    r2 = r1 ∧ st2 = st1 := by
  by_cases hu : s.useEslintrc = true
  · rcases hw1 : loadConfigInAncestorsRecursive env s p1 st with ⟨sta, e | raw⟩
    · simp only [getConfigArrayForFile, loadConfigInAncestors, hw1] at h1
      simp at h1
    · simp only [getConfigArrayForFile, loadConfigInAncestors, hw1] at h1
      have hcache : alistGet sta.configCache (dirname p1) = some raw :=
        walk_success_caches env s p1 st sta raw hu hw1
      have hfc : st1.configCache = sta.configCache :=
        finalize_preserves_configCache env s raw (dirname p1) sta st1 _ h1
      have hfin : alistGet st1.finalizeCache raw.id = some r1 :=
        finalize_success_caches env s raw (dirname p1) sta st1 r1 h1
      have hne : r1.elems ≠ [] :=
        finalize_success_nonempty env s raw (dirname p1) sta st1 r1 hu h1
      have hw2 : loadConfigInAncestorsRecursive env s p2 st1 = (st1, .ok raw) := by
        refine walk_hit env s p2 st1 raw hu ?_
        rw [← hd, hfc]
        exact hcache
      simp only [getConfigArrayForFile, loadConfigInAncestors, hw2] at h2
      simp only [finalizeConfigArray, hfin] at h2
      rw [if_neg (by intro hc; exact hne hc.2)] at h2
      obtain ⟨ha, hb⟩ := Prod.mk.injEq .. ▸ h2
      cases hb
      exact ⟨rfl, ha.symm⟩
  · have hw1 : loadConfigInAncestorsRecursive env s p1 st = (st, .ok s.baseConfigArray) :=
      walk_no_eslintrc env s p1 st (eq_false_of_ne_true hu)
    have hw2 : loadConfigInAncestorsRecursive env s p2 st1 = (st1, .ok s.baseConfigArray) :=
      walk_no_eslintrc env s p2 st1 (eq_false_of_ne_true hu)
    simp only [getConfigArrayForFile, loadConfigInAncestors, hw1] at h1
    simp only [getConfigArrayForFile, loadConfigInAncestors, hw2] at h2
    have hfin : alistGet st1.finalizeCache s.baseConfigArray.id = some r1 :=
      finalize_success_caches env s _ (dirname p1) st st1 r1 h1
    simp only [finalizeConfigArray, hfin] at h2
    rw [if_neg (by intro hc; exact hu hc.1)] at h2
    obtain ⟨ha, hb⟩ := Prod.mk.injEq .. ▸ h2
    cases hb
    exact ⟨rfl, ha.symm⟩

/-- A pattern whose entries are all `IGNORED_SILENTLY` is drained without
yielding, without touching the state, and without error; only
`foundRegardlessOfIgnored` is raised (when there was any entry at all). -/
theorem iterateFilesEntries_all_silent (env : Env) (s : Slots) :
    ∀ (entries : List FileEntry) (st : EnumState) (seen : List FsPath)
      (acc : List FileAndConfig) (fR fnd : Bool),
      (∀ e ∈ entries, e.flag = EntryFlag.IGNORED_SILENTLY) →
      iterateFilesEntries env s entries st seen acc fR fnd
        = (st, seen, acc, fR || !entries.isEmpty, fnd, none) := by
  intro entries
  induction entries with
  | nil => intro st seen acc fR fnd _; simp [iterateFilesEntries]
  | cons e rest ih =>
    intro st seen acc fR fnd hall
    have he : e.flag = EntryFlag.IGNORED_SILENTLY := hall e (List.mem_cons_self _ _)
    simp only [iterateFilesEntries, if_pos he]
    rw [ih st seen acc true fnd (fun x hx => hall x (List.mem_cons_of_mem _ hx))]
    simp

/-- The inner loop's outcome: an aborting error can only be one of the
finalize error kinds, and when no error aborts, the two per-pattern
booleans come out as "some entry existed" and "some non-silent entry
existed or `found` was already set". -/
theorem iterateFilesEntries_spec (env : Env) (s : Slots) :
    ∀ (entries : List FileEntry) (st : EnumState) (seen : List FsPath)
      (acc : List FileAndConfig) (fR fnd : Bool)
      (st' : EnumState) (seen' : List FsPath) (acc' : List FileAndConfig)
      (fR' fnd' : Bool) (oe : Option JsError),
      iterateFilesEntries env s entries st seen acc fR fnd
        = (st', seen', acc', fR', fnd', oe) →
      (∀ e, oe = some e →
        (∃ c, e = .loader c) ∨ e = .validation ∨ ∃ d', e = .configurationNotFound d')
      ∧ (oe = none →
          fR' = (fR || !entries.isEmpty)
          ∧ fnd' = (fnd || entries.any fun en => en.flag != EntryFlag.IGNORED_SILENTLY)) := by
  intro entries
  induction entries with
  | nil =>
    intro st seen acc fR fnd st' seen' acc' fR' fnd' oe h
    simp only [iterateFilesEntries] at h
    obtain ⟨h1, h2, h3, h4, h5, h6⟩ := by simpa using h
    subst h4 h5 h6
    refine ⟨fun e he => by simp at he, fun _ => ?_⟩
    simp
  | cons en rest ih =>
    intro st seen acc fR fnd st' seen' acc' fR' fnd' oe h
    simp only [iterateFilesEntries] at h
    by_cases hflag : en.flag = EntryFlag.IGNORED_SILENTLY
    · rw [if_pos hflag] at h
      obtain ⟨hk, hn⟩ := ih st seen acc true fnd st' seen' acc' fR' fnd' oe h
      refine ⟨hk, fun hnone => ?_⟩
      obtain ⟨ha, hb⟩ := hn hnone
      subst ha hb
      simp [hflag]
    · rw [if_neg hflag] at h
      by_cases hmem : en.filePath ∈ seen
      · rw [if_pos hmem] at h
        obtain ⟨hk, hn⟩ := ih st seen acc true true st' seen' acc' fR' fnd' oe h
        refine ⟨hk, fun hnone => ?_⟩
        obtain ⟨ha, hb⟩ := hn hnone
        subst ha hb
        simp [hflag]
      · rw [if_neg hmem] at h
        rcases hfin : finalizeConfigArray env s en.config (dirname en.filePath) st with
          ⟨st1, e1 | f1⟩
        · rw [hfin] at h
          obtain ⟨ha, hb, hc, hd, he, hf⟩ := by simpa using h
          subst hd he hf
          refine ⟨fun e heq => ?_, fun hnone => by simp at hnone⟩
          have hee : e1 = e := by simpa using heq
          subst hee
          exact finalize_error_kinds env s en.config (dirname en.filePath) st st1 _ hfin
        · rw [hfin] at h
          obtain ⟨hk, hn⟩ :=
            ih st1 (en.filePath :: seen)
              (acc ++ [⟨en.filePath, f1, en.flag = EntryFlag.IGNORED⟩]) true true
              st' seen' acc' fR' fnd' oe h
          refine ⟨hk, fun hnone => ?_⟩
          obtain ⟨ha, hb⟩ := hn hnone
          subst ha hb
          simp [hflag]

/-- Claim C2: for a non-empty pattern `P`, if `_iterateFiles(P)` yields no
entry at all, `iterateFiles` fails `NoFilesFound(P, globDisabled)` with
`globDisabled` true exactly when `globInputPaths` is off and `P` is a glob;
if it yields entries but all are `IGNORED_SILENTLY`, it fails
`AllFilesIgnored(P)`; and if some entry is not `IGNORED_SILENTLY`, neither
per-pattern error is raised. -/
theorem iterateFiles_pattern_errors (env : Env) (s : Slots)
    (iter : String → List FileEntry) (P : String) (st : EnumState)
    (hP : P ≠ "") :
    (iter P = [] →
      iterateFiles env s iter [P] st
        = (st, [], some (.noFilesFound P (!s.globInputPaths && env.isGlobFn P))))
    ∧ (iter P ≠ [] → (∀ e ∈ iter P, e.flag = EntryFlag.IGNORED_SILENTLY) →
        iterateFiles env s iter [P] st = (st, [], some (.allFilesIgnored P)))
    ∧ ((∃ e ∈ iter P, e.flag ≠ EntryFlag.IGNORED_SILENTLY) →
        ∀ q b, (iterateFiles env s iter [P] st).2.2 ≠ some (.noFilesFound q b)
          ∧ (iterateFiles env s iter [P] st).2.2 ≠ some (.allFilesIgnored q)) := by
  refine ⟨fun hnil => ?_, fun hne hall => ?_, fun hex => ?_⟩
  · simp [iterateFiles, iterateFilesPatterns, hP, hnil, iterateFilesEntries]
  · simp only [iterateFiles, iterateFilesPatterns, if_neg hP]
    rw [iterateFilesEntries_all_silent env s (iter P) st [] [] false false hall]
    have : (iter P).isEmpty = false := by
      cases hip : iter P with
      | nil => exact absurd hip hne
      | cons a b => rfl
    simp [this]
  · rcases he : iterateFilesEntries env s (iter P) st [] [] false false with
      ⟨st1, seen1, acc1, fR1, fnd1, oe⟩
    obtain ⟨hk, hn⟩ :=
      iterateFilesEntries_spec env s (iter P) st [] [] false false
        st1 seen1 acc1 fR1 fnd1 oe he
    intro q b
    cases oe with
    | some e =>
      have hkinds := hk e rfl
      constructor
      · simp only [iterateFiles, iterateFilesPatterns, if_neg hP, he]
        intro hcon
        have : e = .noFilesFound q b := by simpa using hcon
        subst this
        rcases hkinds with ⟨c, hc⟩ | hc | ⟨d', hd'⟩ <;> simp_all
      · simp only [iterateFiles, iterateFilesPatterns, if_neg hP, he]
        intro hcon
        have : e = .allFilesIgnored q := by simpa using hcon
        subst this
        rcases hkinds with ⟨c, hc⟩ | hc | ⟨d', hd'⟩ <;> simp_all
    | none =>
      obtain ⟨hfR, hfnd⟩ := hn rfl
      obtain ⟨en, hmem, hflag⟩ := hex
      have hany : (iter P).any (fun x => x.flag != EntryFlag.IGNORED_SILENTLY) = true :=
        List.any_eq_true.mpr ⟨en, hmem, by simpa using hflag⟩
      have hfnd' : fnd1 = true := by rw [hfnd, hany]; simp
      have hfR' : fR1 = true := by
        rw [hfR]
        cases hip : iter P with
        | nil => rw [hip] at hmem; simp at hmem
        | cons a rest => simp
      simp only [iterateFiles, iterateFilesPatterns, if_neg hP, he, hfR', hfnd']
      simp [iterateFilesPatterns]

/-- Claim C5: with `useEslintrc` on and no cache entry, the ancestor walk
caches and returns the base array exactly at the "considered root" stops:
at the filesystem root (`[]`, where `dirname` equals the path it was
derived from — the source's dead `!directoryPath` test cannot fire for an
absolute path), and at the home directory when it differs from `cwd`.  In
every other case — in particular at the home directory when `cwd` *is* the
home directory — the walk loads the directory and (when the load yields
nothing) continues to ascend past it, caching the parent's result. -/
theorem walk_stop_conditions (env : Env) (s : Slots) (st : EnumState)
    (hu : s.useEslintrc = true) :
    (alistGet st.configCache [] = none →
      loadConfigInAncestorsRecursive env s [] st
        = ({ st with configCache := ([], s.baseConfigArray) :: st.configCache },
           .ok s.baseConfigArray))
    ∧ (∀ (x : String) (d : FsPath),
        alistGet st.configCache d = none → d = env.home → s.cwd ≠ env.home →
        loadConfigInAncestorsRecursive env s (x :: d) st
          = ({ st with configCache := (d, s.baseConfigArray) :: st.configCache },
             .ok s.baseConfigArray))
    ∧ (∀ (x : String) (d : FsPath) (elems : List ConfigElement) (rt : Bool),
        alistGet st.configCache d = none →
        ¬(d = env.home ∧ s.cwd ≠ env.home) →
        env.loadOnDirectory d = .ok elems rt → elems = [] →
        ∀ (st2 : EnumState) (p : CAObj),
          loadConfigInAncestorsRecursive env s d { st with nextId := st.nextId + 1 }
            = (st2, .ok p) →
          loadConfigInAncestorsRecursive env s (x :: d) st
            = ({ st2 with configCache := (d, p) :: st2.configCache }, .ok p))
    ∧ (∀ (x : String) (elems : List ConfigElement) (rt : Bool),
        alistGet st.configCache env.home = none →
        s.cwd = env.home →
        env.loadOnDirectory env.home = .ok elems rt → elems = [] →
        ∀ (st2 : EnumState) (p : CAObj),
          loadConfigInAncestorsRecursive env s env.home { st with nextId := st.nextId + 1 }
            = (st2, .ok p) →
          loadConfigInAncestorsRecursive env s (x :: env.home) st
            = ({ st2 with configCache := (env.home, p) :: st2.configCache }, .ok p)) := by
  refine ⟨fun hmiss => ?_, fun x d hmiss hdh hch => ?_,
    fun x d elems rt hmiss hstop hload hemp st2 p hrec => ?_,
    fun x elems rt hmiss hch hload hemp st2 p hrec => ?_⟩
  · simp [loadConfigInAncestorsRecursive, hu, hmiss]
  · subst hdh
    simp [loadConfigInAncestorsRecursive, hu, hmiss, hch]
  · subst hemp
    simp only [loadConfigInAncestorsRecursive, hu, hmiss, hload]
    rw [if_neg (by simp), if_neg hstop]
    simp only [List.length_nil, gt_iff_lt, lt_self_iff_false, false_and, if_false,
      if_neg (by simp : ¬((0:Nat) < 0))]
    rw [hrec]
  · subst hemp
    simp only [loadConfigInAncestorsRecursive, hu, hmiss, hload]
    rw [if_neg (by simp), if_neg (by intro hc; exact hc.2 hch)]
    simp only [List.length_nil, gt_iff_lt, lt_self_iff_false, false_and, if_false,
      if_neg (by simp : ¬((0:Nat) < 0))]
    rw [hrec]

/-- Claim C8: with `useEslintrc` on, no cache entry and no pre-load stop,
an `EACCES` failure of the per-directory load is swallowed — the base
array is cached under that one directory and returned — while a loader
error of any other class, and any error from the recursive ascent,
propagates unchanged. -/
theorem walk_eacces_fallback (env : Env) (s : Slots) (st : EnumState)
    (x : String) (d : FsPath)
    (hu : s.useEslintrc = true)
    (hmiss : alistGet st.configCache d = none)
    (hstop : ¬(d = env.home ∧ s.cwd ≠ env.home)) :
    (env.loadOnDirectory d = .err "EACCES" →
      loadConfigInAncestorsRecursive env s (x :: d) st
        = ({ st with configCache := (d, s.baseConfigArray) :: st.configCache },
           .ok s.baseConfigArray))
    ∧ (∀ code, code ≠ "EACCES" → env.loadOnDirectory d = .err code →
        loadConfigInAncestorsRecursive env s (x :: d) st = (st, .error (.loader code)))
    ∧ (∀ elems rt st2 e,
        env.loadOnDirectory d = .ok elems rt →
        ¬(elems.length > 0 ∧ rt = true) →
        loadConfigInAncestorsRecursive env s d { st with nextId := st.nextId + 1 }
          = (st2, .error e) →
        loadConfigInAncestorsRecursive env s (x :: d) st = (st2, .error e)) := by
  refine ⟨fun hacc => ?_, fun code hcode hload => ?_,
    fun elems rt st2 e hload hnroot hrec => ?_⟩
  · simp [loadConfigInAncestorsRecursive, hu, hmiss, hstop, hacc]
  · simp [loadConfigInAncestorsRecursive, hu, hmiss, hstop, hload, hcode]
  · simp only [loadConfigInAncestorsRecursive, hu, hmiss, hload]
    rw [if_neg (by simp), if_neg hstop, if_neg hnroot]
    by_cases hlen : elems.length > 0
    · rw [if_pos hlen, hrec]
    · rw [if_neg hlen, hrec]

/-- A proper suffix of a path is a suffix of its dirname. -/
theorem suffix_dirname_of_ne {l d : FsPath} (h : l <:+ d) (hne : l ≠ d) :
    l <:+ dirname d := by
  cases d with
  | nil =>
    have : l = [] := by simpa using h
    exact absurd this hne
  | cons y d' =>
    rcases h with ⟨t, ht⟩
    cases t with
    | nil => exact absurd (by simpa using ht) hne
    | cons z t' =>
      refine ⟨t', ?_⟩
      simpa [dirname] using (List.cons.injEq .. ▸ ht).2

/-- When a directory `broot` at or below the walk's start directory loads
as a non-empty `root:true` array and the relevant directories are not yet
cached, every element of a successfully resolved array for a file under
`broot` is a base-array element or comes from a directory between the
file's directory and `broot`: `root:true` halts cascading, so no ancestor
of `broot` contributes. -/
theorem walk_elems_origin (env : Env) (s : Slots) (broot : FsPath)
    (elemsR : List ConfigElement)
    (hu : s.useEslintrc = true)
    (hload : env.loadOnDirectory broot = .ok elemsR true)
    (hne : elemsR ≠ []) :
    ∀ (f : FsPath) (st st' : EnumState) (r : CAObj),
      broot <:+ dirname f →
      (∀ p, broot <:+ p → p <:+ dirname f → alistGet st.configCache p = none) →
      loadConfigInAncestorsRecursive env s f st = (st', .ok r) →
      ∀ e ∈ r.elems,
        e ∈ s.baseConfigArray.elems ∨
        ∃ (p : FsPath) (elemsP : List ConfigElement) (rootP : Bool),
          broot <:+ p ∧ p <:+ dirname f ∧
          env.loadOnDirectory p = .ok elemsP rootP ∧ e ∈ elemsP := by
  intro f
  induction f with
  | nil =>
    intro st st' r hsub hcache h
    have hmiss : alistGet st.configCache [] = none :=
      hcache [] (by simpa [dirname] using hsub) (by simp [dirname])
    simp only [loadConfigInAncestorsRecursive, hu, hmiss] at h
    rw [if_neg (by simp)] at h
    obtain ⟨h1, h2⟩ := Prod.mk.injEq .. ▸ h
    cases h2
    intro e he
    exact Or.inl he
  | cons x d ih =>
    intro st st' r hsub hcache h
    simp only [dirname] at hsub
    have hmiss : alistGet st.configCache d = none :=
      hcache d hsub (by simp [dirname])
    simp only [loadConfigInAncestorsRecursive, hu, hmiss] at h
    rw [if_neg (by simp)] at h
    by_cases hstop : d = env.home ∧ s.cwd ≠ env.home
    · rw [if_pos hstop] at h
      obtain ⟨h1, h2⟩ := Prod.mk.injEq .. ▸ h
      cases h2
      intro e he
      exact Or.inl he
    · rw [if_neg hstop] at h
      rcases hld : env.loadOnDirectory d with ⟨elems, rt⟩ | code
      · simp only [hld] at h
        by_cases hroot : elems.length > 0 ∧ rt = true
        · rw [if_pos hroot] at h
          obtain ⟨h1, h2⟩ := Prod.mk.injEq .. ▸ h
          cases h2
          intro e he
          exact Or.inr ⟨d, elems, rt, hsub, List.suffix_refl d, hld, he⟩
        · rw [if_neg hroot] at h
          have hdne : d ≠ broot := by
            intro hdeq
            subst hdeq
            rw [hload] at hld
            obtain ⟨he1, he2⟩ := LoadResult.ok.injEq .. ▸ hld.symm
            subst he1 he2
            exact hroot ⟨List.length_pos.mpr hne, rfl⟩
          have hsub' : broot <:+ dirname d :=
            suffix_dirname_of_ne hsub (Ne.symm hdne)
          have hcache' : ∀ p, broot <:+ p → p <:+ dirname d →
              alistGet ({ st with nextId := st.nextId + 1 } : EnumState).configCache p
                = none := by
            intro p hp1 hp2
            refine hcache p hp1 (hp2.trans ?_)
            cases d with
            | nil => simp [dirname]
            | cons y d' => exact List.suffix_cons y d'
          by_cases hlen : elems.length > 0
          · rw [if_pos hlen] at h
            rcases hrec : loadConfigInAncestorsRecursive env s d
                { st with nextId := st.nextId + 1 } with ⟨st2, er | parent⟩
            · simp only [hrec] at h; simp at h
            · simp only [hrec] at h
              obtain ⟨h1, h2⟩ := Prod.mk.injEq .. ▸ h
              cases h2
              intro e he
              rcases List.mem_append.mp he with hin | hin
              · rcases ih { st with nextId := st.nextId + 1 } st2 parent hsub' hcache' hrec
                    e hin with hb | ⟨p, ep, rp, hp1, hp2, hp3, hp4⟩
                · exact Or.inl hb
                · refine Or.inr ⟨p, ep, rp, hp1, hp2.trans ?_, hp3, hp4⟩
                  cases d with
                  | nil => simp [dirname]
                  | cons y d' => exact List.suffix_cons y d'
              · exact Or.inr ⟨d, elems, rt, hsub, List.suffix_refl d, hld, hin⟩
          · rw [if_neg hlen] at h
            rcases hrec : loadConfigInAncestorsRecursive env s d
                { st with nextId := st.nextId + 1 } with ⟨st2, er | parent⟩
            · simp only [hrec] at h; simp at h
            · simp only [hrec] at h
              obtain ⟨h1, h2⟩ := Prod.mk.injEq .. ▸ h
              cases h2
              intro e he
              rcases ih { st with nextId := st.nextId + 1 } st2 r hsub' hcache' hrec
                  e he with hb | ⟨p, ep, rp, hp1, hp2, hp3, hp4⟩
              · exact Or.inl hb
              · refine Or.inr ⟨p, ep, rp, hp1, hp2.trans ?_, hp3, hp4⟩
                cases d with
                | nil => simp [dirname]
                | cons y d' => exact List.suffix_cons y d'
      · simp only [hld] at h
        by_cases hacc : code = "EACCES"
        · rw [if_pos hacc] at h
          obtain ⟨h1, h2⟩ := Prod.mk.injEq .. ▸ h
          cases h2
          intro e he
          exact Or.inl he
        · rw [if_neg hacc] at h
          simp at h

/-- Claim C4: when a directory's factory load yields a non-empty array
carrying the root flag, the resolver caches that array under the directory
and returns it for a file directly in it without recursing upward (the
result is exactly the loaded elements), and — via cascading — the resolved
array for any file below the directory contains only base-array elements
or elements loaded from directories at or below it, never elements
contributed by its ancestors. -/
theorem walk_root_halts_cascade (env : Env) (s : Slots) (broot : FsPath)
    (elemsR : List ConfigElement) (leaf : String) (f : FsPath)
    (st st1 st2 : EnumState) (r : CAObj)
    (hu : s.useEslintrc = true)
    (hload : env.loadOnDirectory broot = .ok elemsR true)
    (hne : elemsR ≠ [])
    (hmiss : alistGet st.configCache broot = none)
    (hstop : ¬(broot = env.home ∧ s.cwd ≠ env.home))
    (hbelow : broot <:+ dirname f)
    (hmissAll : ∀ p, broot <:+ p → p <:+ dirname f → alistGet st1.configCache p = none)
    (hrun : loadConfigInAncestorsRecursive env s f st1 = (st2, .ok r)) :
    loadConfigInAncestorsRecursive env s (leaf :: broot) st
      = ({ st with
            nextId := st.nextId + 1
            configCache := (broot, (⟨st.nextId, elemsR⟩ : CAObj)) :: st.configCache },
         .ok ⟨st.nextId, elemsR⟩)
    ∧ ∀ e ∈ r.elems,
        e ∈ s.baseConfigArray.elems ∨
        ∃ (p : FsPath) (elemsP : List ConfigElement) (rootP : Bool),
          broot <:+ p ∧ p <:+ dirname f ∧
          env.loadOnDirectory p = .ok elemsP rootP ∧ e ∈ elemsP := by
  constructor
  · simp only [loadConfigInAncestorsRecursive, hu, hmiss, hload]
    rw [if_neg (by simp), if_neg hstop,
      if_pos ⟨List.length_pos.mpr hne, trivial⟩]
  · exact walk_elems_origin env s broot elemsR hu hload hne f st1 st2 r
      hbelow hmissAll hrun

/-- Replacing the loader leaves `finalizeTail` unchanged (it only consults
the validator). -/
theorem finalizeTail_loader_irrel (env : Env) (g : FsPath → LoadResult)
    (s : Slots) (rid : Nat) (f1 : CAObj) (d : FsPath) (st : EnumState) :
    finalizeTail { env with loadOnDirectory := g } s rid f1 d st
      = finalizeTail env s rid f1 d st := rfl

/-- The elements of an array successfully returned by `finalizeTail` are
its input's elements followed by the CLI elements. -/
theorem finalizeTail_ok_elems (env : Env) (s : Slots) (rid : Nat)
    (f1 : CAObj) (d : FsPath) (st st' : EnumState) (r : CAObj)
    (h : finalizeTail env s rid f1 d st = (st', .ok r)) :
    r.elems = f1.elems ++ s.cliConfigArray.elems := by
  simp only [finalizeTail] at h
  repeat' split at h
  all_goals
    first
      | (simp at h; done)
      | (obtain ⟨h1, h2⟩ := Prod.mk.injEq .. ▸ h; cases h2; subst h1;
         simp_all [List.length_eq_zero])

/-- A `ConfigurationNotFound` failure of `finalizeTail` names its own
directory argument, happens only with `useEslintrc` on, and happens after
the finalize cache was filled with the empty finalized array. -/
theorem finalizeTail_cnf_inversion (env : Env) (s : Slots) (rid : Nat)
    (f1 : CAObj) (d : FsPath) (st st' : EnumState) (d' : FsPath)
    (h : finalizeTail env s rid f1 d st = (st', .error (.configurationNotFound d'))) :
    d' = d ∧ s.useEslintrc = true
      ∧ ∃ f, alistGet st'.finalizeCache rid = some f ∧ f.elems = [] := by
  simp only [finalizeTail] at h
  repeat' split at h
  all_goals
    first
      | (simp at h; done)
      | (obtain ⟨h1, h2⟩ := Prod.mk.injEq .. ▸ h; cases h2; subst h1; simp at h2; done)
      | (obtain ⟨h1, h2⟩ := Prod.mk.injEq .. ▸ h;
         have hd' := by simpa using h2
         subst h1
         refine ⟨hd'.symm ▸ rfl, ?_⟩
         simp_all [alistGet])

/-- `finalizeTail` cannot fail `ConfigurationNotFound` when its input or
the CLI array is non-empty. -/
theorem finalizeTail_no_cnf (env : Env) (s : Slots) (rid : Nat)
    (f1 : CAObj) (d : FsPath) (st st' : EnumState) (d' : FsPath)
    (hne : f1.elems ≠ [] ∨ s.cliConfigArray.elems ≠ []) :
    finalizeTail env s rid f1 d st ≠ (st', .error (.configurationNotFound d')) := by
  intro h
  simp only [finalizeTail] at h
  repeat' split at h
  all_goals simp_all [List.length_eq_zero]

/-- The ancestor walk only fails with loader errors. -/
theorem walk_error_kinds (env : Env) (s : Slots) :
    ∀ (fp : FsPath) (st st' : EnumState) (e : JsError),
      loadConfigInAncestorsRecursive env s fp st = (st', .error e) →
      ∃ c, e = .loader c := by
  intro fp
  induction fp with
  | nil =>
    intro st st' e h
    by_cases hu : s.useEslintrc = true
    · simp only [loadConfigInAncestorsRecursive, hu] at h
      rw [if_neg (by simp)] at h
      split at h <;> simp at h
    · rw [walk_no_eslintrc env s _ st (eq_false_of_ne_true hu)] at h
      simp at h
  | cons x d ih =>
    intro st st' e h
    by_cases hu : s.useEslintrc = true
    · simp only [loadConfigInAncestorsRecursive, hu] at h
      rw [if_neg (by simp)] at h
      split at h
      · simp at h
      · split at h
        · simp at h
        · split at h
          · next code _ =>
            split at h
            · simp at h
            · obtain ⟨h1, h2⟩ := Prod.mk.injEq .. ▸ h
              have : JsError.loader code = e := by simpa using h2
              exact ⟨code, this.symm⟩
          · split at h
            · simp at h
            · split at h
              all_goals
                rcases hrec : loadConfigInAncestorsRecursive env s d
                    { st with nextId := st.nextId + 1 } with ⟨st2, er | parent⟩
              all_goals simp only [hrec] at h
              · obtain ⟨h1, h2⟩ := Prod.mk.injEq .. ▸ h
                have : er = e := by simpa using h2
                exact this ▸ ih _ _ _ hrec
              · simp at h
              · obtain ⟨h1, h2⟩ := Prod.mk.injEq .. ▸ h
                have : er = e := by simpa using h2
                exact this ▸ ih _ _ _ hrec
              · simp at h
    · rw [walk_no_eslintrc env s _ st (eq_false_of_ne_true hu)] at h
      simp at h

/-- Claim C6: during actual finalization of a raw array (a finalize-cache
miss), the factory's directory-load on the home directory is invoked if
and only if `useEslintrc` is on and every element of both the raw array
and the CLI array has an empty `filePath`.  When invoked, a loader failure
surfaces unchanged and a loaded personal config lands between the raw
elements and the CLI elements; when any element comes from a real file,
the result does not depend on the loader at all. -/
theorem finalize_personal_config_iff (env : Env) (s : Slots) (raw : CAObj)
    (dir : FsPath) (st : EnumState)
    (hmiss : alistGet st.finalizeCache raw.id = none) :
    ((s.useEslintrc = true
        ∧ raw.elems.all (fun c => c.filePath == "") = true
        ∧ s.cliConfigArray.elems.all (fun c => c.filePath == "") = true) →
      (∀ c, env.loadOnDirectory env.home = .err c →
        finalizeConfigArray env s raw dir st = (st, .error (.loader c)))
      ∧ (∀ pElems prt st' r,
          env.loadOnDirectory env.home = .ok pElems prt →
          finalizeConfigArray env s raw dir st = (st', .ok r) →
          r.elems = (raw.elems ++ pElems) ++ s.cliConfigArray.elems))
    ∧ (¬(s.useEslintrc = true
        ∧ raw.elems.all (fun c => c.filePath == "") = true
        ∧ s.cliConfigArray.elems.all (fun c => c.filePath == "") = true) →
      ∀ g, finalizeConfigArray env s raw dir st
        = finalizeConfigArray { env with loadOnDirectory := g } s raw dir st) := by
  constructor
  · intro hcond
    constructor
    · intro c hld
      simp only [finalizeConfigArray, hmiss, if_pos hcond, hld]
    · intro pElems prt st' r hld h
      simp only [finalizeConfigArray, hmiss, if_pos hcond, hld] at h
      split at h
      · next hlen =>
        have hpe : pElems = [] := List.length_eq_zero.mp hlen
        subst hpe
        have := finalizeTail_ok_elems env s raw.id raw dir st st' r h
        simpa using this
      · have := finalizeTail_ok_elems env s raw.id
          ⟨st.nextId, raw.elems ++ pElems⟩ dir { st with nextId := st.nextId + 1 }
          st' r h
        simpa using this
  · intro hcond g
    simp only [finalizeConfigArray, hmiss, if_neg hcond]
    exact (finalizeTail_loader_irrel env g s raw.id raw dir st).symm

/-- With `useEslintrc` on, the invariant "every cached array is non-empty
or is the base array itself" is preserved by the ancestor walk, and the
returned array satisfies it too. -/
theorem walk_nonempty_or_base (env : Env) (s : Slots) :
    ∀ (fp : FsPath) (st st' : EnumState) (r : CAObj),
      (∀ p ca, (p, ca) ∈ st.configCache → ca.elems ≠ [] ∨ ca = s.baseConfigArray) →
      loadConfigInAncestorsRecursive env s fp st = (st', .ok r) →
      (r.elems ≠ [] ∨ r = s.baseConfigArray)
      ∧ ∀ p ca, (p, ca) ∈ st'.configCache →
          ca.elems ≠ [] ∨ ca = s.baseConfigArray := by
  intro fp
  induction fp with
  | nil =>
    intro st st' r hinv h
    by_cases hu : s.useEslintrc = true
    · simp only [loadConfigInAncestorsRecursive, hu] at h
      rw [if_neg (by simp)] at h
      split at h
      · next ca heq =>
        obtain ⟨h1, h2⟩ := Prod.mk.injEq .. ▸ h
        cases h2
        subst h1
        exact ⟨hinv _ _ (alistGet_mem _ _ _ heq), hinv⟩
      · obtain ⟨h1, h2⟩ := Prod.mk.injEq .. ▸ h
        cases h2
        subst h1
        refine ⟨Or.inr rfl, fun p ca hmem => ?_⟩
        rcases List.mem_cons.mp hmem with hm | hm
        · exact Or.inr (congrArg Prod.snd hm)
        · exact hinv p ca hm
    · rw [walk_no_eslintrc env s _ st (eq_false_of_ne_true hu)] at h
      obtain ⟨h1, h2⟩ := Prod.mk.injEq .. ▸ h
      cases h2
      subst h1
      exact ⟨Or.inr rfl, hinv⟩
  | cons x d ih =>
    intro st st' r hinv h
    by_cases hu : s.useEslintrc = true
    · simp only [loadConfigInAncestorsRecursive, hu] at h
      rw [if_neg (by simp)] at h
      split at h
      · next ca heq =>
        obtain ⟨h1, h2⟩ := Prod.mk.injEq .. ▸ h
        cases h2
        subst h1
        exact ⟨hinv _ _ (alistGet_mem _ _ _ heq), hinv⟩
      · split at h
        · obtain ⟨h1, h2⟩ := Prod.mk.injEq .. ▸ h
          cases h2
          subst h1
          refine ⟨Or.inr rfl, fun p ca hmem => ?_⟩
          rcases List.mem_cons.mp hmem with hm | hm
          · exact Or.inr (congrArg Prod.snd hm)
          · exact hinv p ca hm
        · split at h
          · split at h
            · obtain ⟨h1, h2⟩ := Prod.mk.injEq .. ▸ h
              cases h2
              subst h1
              refine ⟨Or.inr rfl, fun p ca hmem => ?_⟩
              rcases List.mem_cons.mp hmem with hm | hm
              · exact Or.inr (congrArg Prod.snd hm)
              · exact hinv p ca hm
            · simp at h
          · split at h
            · next hroot =>
              obtain ⟨h1, h2⟩ := Prod.mk.injEq .. ▸ h
              cases h2
              subst h1
              refine ⟨Or.inl fun hc => ?_, fun p ca hmem => ?_⟩
              · simp only [CAObj.mk.injEq] at hc
                simp_all
              · rcases List.mem_cons.mp hmem with hm | hm
                · refine Or.inl fun hc => ?_
                  obtain ⟨hm1, hm2⟩ := Prod.mk.injEq .. ▸ hm
                  subst hm2
                  simp only at hc
                  simp_all
                · exact hinv p ca hm
            · split at h
              · next hlen =>
                rcases hrec : loadConfigInAncestorsRecursive env s d
                    { st with nextId := st.nextId + 1 } with ⟨st2, er | parent⟩
                · simp only [hrec] at h; simp at h
                · simp only [hrec] at h
                  obtain ⟨hr, hpres⟩ := ih { st with nextId := st.nextId + 1 } st2
                    parent hinv hrec
                  obtain ⟨h1, h2⟩ := Prod.mk.injEq .. ▸ h
                  cases h2
                  subst h1
                  refine ⟨Or.inl fun hc => ?_, fun p ca hmem => ?_⟩
                  · simp only [CAObj.mk.injEq, List.append_eq_nil] at hc
                    simp_all
                  · rcases List.mem_cons.mp hmem with hm | hm
                    · refine Or.inl fun hc => ?_
                      obtain ⟨hm1, hm2⟩ := Prod.mk.injEq .. ▸ hm
                      subst hm2
                      simp only [List.append_eq_nil] at hc
                      simp_all
                    · exact hpres p ca hm
              · rcases hrec : loadConfigInAncestorsRecursive env s d
                    { st with nextId := st.nextId + 1 } with ⟨st2, er | parent⟩
                · simp only [hrec] at h; simp at h
                · simp only [hrec] at h
                  obtain ⟨hr, hpres⟩ := ih { st with nextId := st.nextId + 1 } st2
                    parent hinv hrec
                  obtain ⟨h1, h2⟩ := Prod.mk.injEq .. ▸ h
                  cases h2
                  subst h1
                  refine ⟨hr, fun p ca hmem => ?_⟩
                  rcases List.mem_cons.mp hmem with hm | hm
                  · obtain ⟨hm1, hm2⟩ := Prod.mk.injEq .. ▸ hm
                    subst hm2
                    exact hr
                  · exact hpres p ca hm
    · rw [walk_no_eslintrc env s _ st (eq_false_of_ne_true hu)] at h
      obtain ⟨h1, h2⟩ := Prod.mk.injEq .. ▸ h
      cases h2
      subst h1
      exact ⟨Or.inr rfl, hinv⟩

/-- The ancestor walk never touches the finalize cache. -/
theorem walk_preserves_finalizeCache (env : Env) (s : Slots) :
    ∀ (fp : FsPath) (st st' : EnumState) (r : Except JsError CAObj),
      loadConfigInAncestorsRecursive env s fp st = (st', r) →
      st'.finalizeCache = st.finalizeCache := by
  intro fp
  induction fp with
  | nil =>
    intro st st' r h
    by_cases hu : s.useEslintrc = true
    · simp only [loadConfigInAncestorsRecursive, hu] at h
      rw [if_neg (by simp)] at h
      split at h <;>
        (obtain ⟨h1, h2⟩ := Prod.mk.injEq .. ▸ h; subst h1; rfl)
    · rw [walk_no_eslintrc env s _ st (eq_false_of_ne_true hu)] at h
      obtain ⟨h1, h2⟩ := Prod.mk.injEq .. ▸ h
      subst h1
      rfl
  | cons x d ih =>
    intro st st' r h
    by_cases hu : s.useEslintrc = true
    · simp only [loadConfigInAncestorsRecursive, hu] at h
      rw [if_neg (by simp)] at h
      split at h
      · obtain ⟨h1, h2⟩ := Prod.mk.injEq .. ▸ h; subst h1; rfl
      · split at h
        · obtain ⟨h1, h2⟩ := Prod.mk.injEq .. ▸ h; subst h1; rfl
        · split at h
          · split at h <;> (obtain ⟨h1, h2⟩ := Prod.mk.injEq .. ▸ h; subst h1; rfl)
          · split at h
            · obtain ⟨h1, h2⟩ := Prod.mk.injEq .. ▸ h; subst h1; rfl
            · split at h <;>
                (rcases hrec : loadConfigInAncestorsRecursive env s d
                    { st with nextId := st.nextId + 1 } with ⟨st2, er | parent⟩ <;>
                  simp only [hrec] at h <;>
                  (obtain ⟨h1, h2⟩ := Prod.mk.injEq .. ▸ h; subst h1;
                   exact ih { st with nextId := st.nextId + 1 } st2 _ hrec))
    · rw [walk_no_eslintrc env s _ st (eq_false_of_ne_true hu)] at h
      obtain ⟨h1, h2⟩ := Prod.mk.injEq .. ▸ h
      subst h1
      rfl

/-- Claim C7: a `ConfigurationNotFound` failure of finalization names the
requesting directory and happens only with `useEslintrc` on and an empty
finalized array already stored in the finalize cache (the check runs after
the cache store); an empty cached finalized array also fails on a cache
hit; a non-empty CLI array suppresses the failure on a finalize-cache
miss; and with a non-empty base config (and fresh caches)
`getConfigArrayForFile` never fails `ConfigurationNotFound`.  With
`useEslintrc` off no `ConfigurationNotFound` is possible at all, by the
first conjunct. -/
theorem finalize_cnf_iff (env : Env) (s : Slots) (raw : CAObj)
    (dir : FsPath) (st : EnumState) (p : FsPath) :
    (∀ st' d, finalizeConfigArray env s raw dir st
        = (st', .error (.configurationNotFound d)) →
      d = dir ∧ s.useEslintrc = true
        ∧ ∃ f, alistGet st'.finalizeCache raw.id = some f ∧ f.elems = [])
    ∧ (∀ f, alistGet st.finalizeCache raw.id = some f → f.elems = [] →
        s.useEslintrc = true →
        finalizeConfigArray env s raw dir st
          = (st, .error (.configurationNotFound dir)))
    ∧ (alistGet st.finalizeCache raw.id = none → s.cliConfigArray.elems ≠ [] →
        ∀ st' d, finalizeConfigArray env s raw dir st
          ≠ (st', .error (.configurationNotFound d)))
    ∧ ((∀ q ca, (q, ca) ∈ st.configCache → ca.elems ≠ [] ∨ ca = s.baseConfigArray) →
        st.finalizeCache = [] →
        s.baseConfigArray.elems ≠ [] →
        ∀ st' d, getConfigArrayForFile env s p st
          ≠ (st', .error (.configurationNotFound d))) := by
  refine ⟨fun st' d h => ?_, fun f hsome hempty hu => ?_, fun hmiss hcli st' d h => ?_,
    fun hinv hfc hbase st' d h => ?_⟩
  · simp only [finalizeConfigArray] at h
    split at h
    · next f heq =>
      split at h
      · next hcond =>
        obtain ⟨h1, h2⟩ := Prod.mk.injEq .. ▸ h
        subst h1
        have hd : dir = d := by simpa using h2
        subst hd
        exact ⟨rfl, hcond.1, f, heq, hcond.2⟩
      · simp at h
    · split at h
      · split at h
        · simp at h
        · split at h
          · exact finalizeTail_cnf_inversion _ _ _ _ _ _ _ _ h
          · exact finalizeTail_cnf_inversion _ _ _ _ _ _ _ _ h
      · exact finalizeTail_cnf_inversion _ _ _ _ _ _ _ _ h
  · simp only [finalizeConfigArray, hsome, if_pos (And.intro hu hempty)]
  · simp only [finalizeConfigArray, hmiss] at h
    split at h
    · split at h
      · simp at h
      · split at h
        · exact finalizeTail_no_cnf _ _ _ _ _ _ _ _ (Or.inr hcli) h
        · exact finalizeTail_no_cnf _ _ _ _ _ _ _ _ (Or.inr hcli) h
    · exact finalizeTail_no_cnf _ _ _ _ _ _ _ _ (Or.inr hcli) h
  · simp only [getConfigArrayForFile, loadConfigInAncestors] at h
    rcases hw : loadConfigInAncestorsRecursive env s p st with ⟨st1, er | raw'⟩
    · simp only [hw] at h
      obtain ⟨c, hc⟩ := walk_error_kinds env s p st st1 er hw
      subst hc
      simp at h
    · simp only [hw] at h
      have hne' : raw'.elems ≠ [] := by
        rcases (walk_nonempty_or_base env s p st st1 raw' hinv hw).1 with hn | hb
        · exact hn
        · rw [hb]; exact hbase
      have hfc1 : st1.finalizeCache = [] :=
        (walk_preserves_finalizeCache env s p st st1 _ hw).trans hfc
      have hmiss1 : alistGet st1.finalizeCache raw'.id = none := by
        rw [hfc1]; rfl
      simp only [finalizeConfigArray, hmiss1] at h
      split at h
      · split at h
        · simp at h
        · split at h
          · exact finalizeTail_no_cnf _ _ _ _ _ _ _ _ (Or.inl hne') h
          · refine finalizeTail_no_cnf _ _ _ _ _ _ _ _ (Or.inl ?_) h
            intro hc
            exact hne' (List.append_eq_nil.mp (by simpa using hc)).1
      · exact finalizeTail_no_cnf _ _ _ _ _ _ _ _ (Or.inl hne') h

/-- `finalizeTail` keeps all identities in the finalize cache below the
counter, never decreases the counter, and returns an array whose identity
is below the new counter. -/
theorem finalizeTail_id_bounds (env : Env) (s : Slots) (rid : Nat) (f1 : CAObj)
    (d : FsPath) (st st' : EnumState) (r : Except JsError CAObj)
    (hrid : rid < st.nextId) (hf1 : f1.id < st.nextId)
    (hfin : ∀ k ca, (k, ca) ∈ st.finalizeCache → k < st.nextId ∧ ca.id < st.nextId)
    (h : finalizeTail env s rid f1 d st = (st', r)) :
    st.nextId ≤ st'.nextId
    ∧ (∀ k ca, (k, ca) ∈ st'.finalizeCache → k < st'.nextId ∧ ca.id < st'.nextId)
    ∧ (∀ ca, r = .ok ca → ca.id < st'.nextId) := by
  simp only [finalizeTail] at h
  repeat' split at h
  all_goals try dsimp only at h
  all_goals obtain ⟨h1, h2⟩ := Prod.mk.injEq .. ▸ h
  all_goals subst h1
  all_goals subst h2
  all_goals
    refine ⟨by first | omega | (dsimp only; omega), fun k ca hmem => ?_,
      fun ca hca => ?_⟩
  all_goals
    first
      | (simp at hca; done)
      | (cases hca; first | omega | (dsimp only; omega))
      | skip
  all_goals try dsimp only at hmem
  all_goals try dsimp only
  all_goals
    first
      | (rcases List.mem_cons.mp hmem with hm | hm
         · obtain ⟨hm1, hm2⟩ := Prod.mk.injEq .. ▸ hm
           subst hm1 hm2
           refine ⟨by omega, by first | omega | (dsimp only; omega)⟩
         · have := hfin k ca hm
           exact ⟨by omega, by omega⟩)
      | (have hkv := hfin k ca hmem
         exact ⟨by omega, by omega⟩)

/-- `_finalizeConfigArray` keeps all identities in the finalize cache below
the counter, never decreases the counter, and returns an array whose
identity is below the new counter. -/
theorem finalize_id_bounds (env : Env) (s : Slots) (raw : CAObj)
    (dir : FsPath) (st st' : EnumState) (r : Except JsError CAObj)
    (hraw : raw.id < st.nextId)
    (hfin : ∀ k ca, (k, ca) ∈ st.finalizeCache → k < st.nextId ∧ ca.id < st.nextId)
    (h : finalizeConfigArray env s raw dir st = (st', r)) :
    st.nextId ≤ st'.nextId
    ∧ (∀ k ca, (k, ca) ∈ st'.finalizeCache → k < st'.nextId ∧ ca.id < st'.nextId)
    ∧ (∀ ca, r = .ok ca → ca.id < st'.nextId) := by
  simp only [finalizeConfigArray] at h
  rcases hq : alistGet st.finalizeCache raw.id with _ | f
  · simp only [hq] at h
    split at h
    · rcases hld : env.loadOnDirectory env.home with ⟨pElems, prt⟩ | c
      · simp only [hld] at h
        split at h
        · exact finalizeTail_id_bounds env s raw.id raw dir st st' r hraw hraw hfin h
        · obtain ⟨ha, hb, hc⟩ := finalizeTail_id_bounds env s raw.id
            ⟨st.nextId, raw.elems ++ pElems⟩ dir { st with nextId := st.nextId + 1 }
            st' r (by first | omega | (dsimp only; omega))
            (by first | omega | (dsimp only; omega))
            (fun k ca hm => by have := hfin k ca hm; dsimp only; omega) h
          refine ⟨by first | omega | (dsimp only at ha; omega), hb, hc⟩
      · simp only [hld] at h
        obtain ⟨h1, h2⟩ := Prod.mk.injEq .. ▸ h
        subst h1
        subst h2
        exact ⟨le_refl _, hfin, fun ca hca => by simp at hca⟩
    · exact finalizeTail_id_bounds env s raw.id raw dir st st' r hraw hraw hfin h
  · simp only [hq] at h
    split at h
    · obtain ⟨h1, h2⟩ := Prod.mk.injEq .. ▸ h
      subst h1
      subst h2
      exact ⟨le_refl _, hfin, fun ca hca => by simp at hca⟩
    · obtain ⟨h1, h2⟩ := Prod.mk.injEq .. ▸ h
      subst h1
      subst h2
      refine ⟨le_refl _, hfin, fun ca hca => ?_⟩
      cases hca
      exact (hfin _ _ (alistGet_mem _ _ _ hq)).2

/-- `finalizeTail` returns an array whose identity is at least `n` when its
input array's identity and the counter are. -/
theorem finalizeTail_id_lower (env : Env) (s : Slots) (n rid : Nat) (f1 : CAObj)
    (d : FsPath) (st st' : EnumState) (r : Except JsError CAObj)
    (hn : n ≤ st.nextId) (hf1 : n ≤ f1.id)
    (h : finalizeTail env s rid f1 d st = (st', r)) :
    ∀ ca, r = .ok ca → n ≤ ca.id := by
  simp only [finalizeTail] at h
  repeat' split at h
  all_goals try dsimp only at h
  all_goals obtain ⟨h1, h2⟩ := Prod.mk.injEq .. ▸ h
  all_goals subst h1
  all_goals subst h2
  all_goals intro ca hca
  all_goals
    first
      | (simp at hca; done)
      | (cases hca; first | omega | (dsimp only; omega))

/-- On a finalize-cache whose keys are all below `n`, finalization of a raw
array with identity at least `n` (necessarily a cache miss) returns an
array with identity at least `n`. -/
theorem finalize_id_lower (env : Env) (s : Slots) (n : Nat) (raw : CAObj)
    (dir : FsPath) (st st' : EnumState) (r : Except JsError CAObj)
    (hn : n ≤ st.nextId) (hraw : n ≤ raw.id)
    (hkeys : ∀ k ca, (k, ca) ∈ st.finalizeCache → k < n)
    (h : finalizeConfigArray env s raw dir st = (st', r)) :
    ∀ ca, r = .ok ca → n ≤ ca.id := by
  have hmiss : alistGet st.finalizeCache raw.id = none :=
    alistGet_none_of_lt st.finalizeCache n raw.id hkeys hraw
  simp only [finalizeConfigArray, hmiss] at h
  split at h
  · rcases hld : env.loadOnDirectory env.home with ⟨pElems, prt⟩ | c
    · simp only [hld] at h
      split at h
      · exact finalizeTail_id_lower env s n raw.id raw dir st st' r hn hraw h
      · exact finalizeTail_id_lower env s n raw.id
          ⟨st.nextId, raw.elems ++ pElems⟩ dir { st with nextId := st.nextId + 1 }
          st' r (by first | omega | (dsimp only; omega))
          (by first | omega | (dsimp only; omega)) h
    · simp only [hld] at h
      obtain ⟨h1, h2⟩ := Prod.mk.injEq .. ▸ h
      subst h1
      subst h2
      intro ca hca
      simp at hca
  · exact finalizeTail_id_lower env s n raw.id raw dir st st' r hn hraw h

/-- The ancestor walk keeps all cached identities below the counter, never
decreases the counter, and returns an array whose identity is below the
new counter (given identities already in bounds). -/
theorem walk_id_bounds (env : Env) (s : Slots) :
    ∀ (fp : FsPath) (st st' : EnumState) (r : Except JsError CAObj),
      s.baseConfigArray.id < st.nextId →
      (∀ p ca, (p, ca) ∈ st.configCache → ca.id < st.nextId) →
      loadConfigInAncestorsRecursive env s fp st = (st', r) →
      st.nextId ≤ st'.nextId
      ∧ (∀ p ca, (p, ca) ∈ st'.configCache → ca.id < st'.nextId)
      ∧ (∀ ca, r = .ok ca → ca.id < st'.nextId) := by
  intro fp
  induction fp with
  | nil =>
    intro st st' r hbase hcc h
    by_cases hu : s.useEslintrc = true
    · simp only [loadConfigInAncestorsRecursive, hu] at h
      rw [if_neg (by simp)] at h
      split at h
      · next ca heq =>
        obtain ⟨h1, h2⟩ := Prod.mk.injEq .. ▸ h
        subst h1
        subst h2
        refine ⟨le_refl _, hcc, fun ca' hca => ?_⟩
        cases hca
        exact hcc _ _ (alistGet_mem _ _ _ heq)
      · obtain ⟨h1, h2⟩ := Prod.mk.injEq .. ▸ h
        subst h1
        subst h2
        refine ⟨le_refl _, fun p ca hmem => ?_, fun ca hca => ?_⟩
        · rcases List.mem_cons.mp hmem with hm | hm
          · obtain ⟨hm1, hm2⟩ := Prod.mk.injEq .. ▸ hm
            subst hm2
            exact hbase
          · exact hcc p ca hm
        · cases hca
          exact hbase
    · rw [walk_no_eslintrc env s _ st (eq_false_of_ne_true hu)] at h
      obtain ⟨h1, h2⟩ := Prod.mk.injEq .. ▸ h
      subst h1
      subst h2
      refine ⟨le_refl _, hcc, fun ca hca => ?_⟩
      cases hca
      exact hbase
  | cons x d ih =>
    intro st st' r hbase hcc h
    by_cases hu : s.useEslintrc = true
    · simp only [loadConfigInAncestorsRecursive, hu] at h
      rw [if_neg (by simp)] at h
      split at h
      · next ca heq =>
        obtain ⟨h1, h2⟩ := Prod.mk.injEq .. ▸ h
        subst h1
        subst h2
        refine ⟨le_refl _, hcc, fun ca' hca => ?_⟩
        cases hca
        exact hcc _ _ (alistGet_mem _ _ _ heq)
      · split at h
        · obtain ⟨h1, h2⟩ := Prod.mk.injEq .. ▸ h
          subst h1
          subst h2
          refine ⟨le_refl _, fun p ca hmem => ?_, fun ca hca => ?_⟩
          · rcases List.mem_cons.mp hmem with hm | hm
            · obtain ⟨hm1, hm2⟩ := Prod.mk.injEq .. ▸ hm
              subst hm2
              exact hbase
            · exact hcc p ca hm
          · cases hca
            exact hbase
        · split at h
          · split at h
            · obtain ⟨h1, h2⟩ := Prod.mk.injEq .. ▸ h
              subst h1
              subst h2
              refine ⟨le_refl _, fun p ca hmem => ?_, fun ca hca => ?_⟩
              · rcases List.mem_cons.mp hmem with hm | hm
                · obtain ⟨hm1, hm2⟩ := Prod.mk.injEq .. ▸ hm
                  subst hm2
                  exact hbase
                · exact hcc p ca hm
              · cases hca
                exact hbase
            · obtain ⟨h1, h2⟩ := Prod.mk.injEq .. ▸ h
              subst h1
              subst h2
              exact ⟨le_refl _, hcc, fun ca hca => by simp at hca⟩
          · split at h
            · obtain ⟨h1, h2⟩ := Prod.mk.injEq .. ▸ h
              subst h1
              subst h2
              refine ⟨by first | omega | (dsimp only; omega),
                fun p ca hmem => ?_, fun ca hca => ?_⟩
              · try dsimp only at hmem
                rcases List.mem_cons.mp hmem with hm | hm
                · obtain ⟨hm1, hm2⟩ := Prod.mk.injEq .. ▸ hm
                  subst hm2
                  first | omega | (dsimp only; omega)
                · have := hcc p ca hm
                  first | omega | (dsimp only; omega)
              · cases hca
                first | omega | (dsimp only; omega)
            · split at h <;>
                (rcases hrec : loadConfigInAncestorsRecursive env s d
                    { st with nextId := st.nextId + 1 } with ⟨st2, er | parent⟩ <;>
                  simp only [hrec] at h)
              · obtain ⟨h1, h2⟩ := Prod.mk.injEq .. ▸ h
                subst h1
                subst h2
                obtain ⟨ha, hb, hc⟩ := ih { st with nextId := st.nextId + 1 } st2 _
                  (by first | omega | (dsimp only; omega))
                  (fun p ca hm => by have := hcc p ca hm; dsimp only; omega) hrec
                refine ⟨by dsimp only at ha ⊢; omega, hb,
                  fun ca hca => by simp at hca⟩
              · obtain ⟨h1, h2⟩ := Prod.mk.injEq .. ▸ h
                subst h1
                subst h2
                obtain ⟨ha, hb, hc⟩ := ih { st with nextId := st.nextId + 1 } st2 _
                  (by first | omega | (dsimp only; omega))
                  (fun p ca hm => by have := hcc p ca hm; dsimp only; omega) hrec
                have hp : parent.id < st2.nextId := hc parent rfl
                refine ⟨by dsimp only at ha ⊢; omega, fun p ca hmem => ?_,
                  fun ca hca => ?_⟩
                · try dsimp only at hmem
                  rcases List.mem_cons.mp hmem with hm | hm
                  · obtain ⟨hm1, hm2⟩ := Prod.mk.injEq .. ▸ hm
                    subst hm2
                    first
                      | (dsimp only; dsimp only at ha; omega)
                      | omega
                  · have := hb p ca hm
                    first | omega | (dsimp only; omega)
                · cases hca
                  first
                    | (dsimp only; dsimp only at ha; omega)
                    | omega
              · obtain ⟨h1, h2⟩ := Prod.mk.injEq .. ▸ h
                subst h1
                subst h2
                obtain ⟨ha, hb, hc⟩ := ih { st with nextId := st.nextId + 1 } st2 _
                  (by first | omega | (dsimp only; omega))
                  (fun p ca hm => by have := hcc p ca hm; dsimp only; omega) hrec
                refine ⟨by dsimp only at ha ⊢; omega, hb,
                  fun ca hca => by simp at hca⟩
              · obtain ⟨h1, h2⟩ := Prod.mk.injEq .. ▸ h
                subst h1
                subst h2
                obtain ⟨ha, hb, hc⟩ := ih { st with nextId := st.nextId + 1 } st2 _
                  (by first | omega | (dsimp only; omega))
                  (fun p ca hm => by have := hcc p ca hm; dsimp only; omega) hrec
                have hp : parent.id < st2.nextId := hc parent rfl
                refine ⟨by dsimp only at ha ⊢; omega, fun p ca hmem => ?_,
                  fun ca hca => ?_⟩
                · try dsimp only at hmem
                  rcases List.mem_cons.mp hmem with hm | hm
                  · obtain ⟨hm1, hm2⟩ := Prod.mk.injEq .. ▸ hm
                    subst hm2
                    first | omega | (dsimp only; omega)
                  · have := hb p ca hm
                    first | omega | (dsimp only; omega)
                · cases hca
                  first | omega | (dsimp only; omega)
    · rw [walk_no_eslintrc env s _ st (eq_false_of_ne_true hu)] at h
      obtain ⟨h1, h2⟩ := Prod.mk.injEq .. ▸ h
      subst h1
      subst h2
      refine ⟨le_refl _, hcc, fun ca hca => ?_⟩
      cases hca
      exact hbase

/-- When the counter, the base array's identity and every cached identity
are at least `n`, the ancestor walk preserves those lower bounds and
returns an array with identity at least `n`. -/
theorem walk_id_lower (env : Env) (s : Slots) (n : Nat)
    (hbase : n ≤ s.baseConfigArray.id) :
    ∀ (fp : FsPath) (st st' : EnumState) (r : Except JsError CAObj),
      n ≤ st.nextId →
      (∀ p ca, (p, ca) ∈ st.configCache → n ≤ ca.id) →
      loadConfigInAncestorsRecursive env s fp st = (st', r) →
      n ≤ st'.nextId ∧ (∀ ca, r = .ok ca → n ≤ ca.id) := by
  intro fp
  induction fp with
  | nil =>
    intro st st' r hn hcc h
    by_cases hu : s.useEslintrc = true
    · simp only [loadConfigInAncestorsRecursive, hu] at h
      rw [if_neg (by simp)] at h
      split at h
      · next ca heq =>
        obtain ⟨h1, h2⟩ := Prod.mk.injEq .. ▸ h
        subst h1
        subst h2
        exact ⟨hn, fun ca' hca => by
          cases hca; exact hcc _ _ (alistGet_mem _ _ _ heq)⟩
      · obtain ⟨h1, h2⟩ := Prod.mk.injEq .. ▸ h
        subst h1
        subst h2
        exact ⟨hn, fun ca hca => by cases hca; exact hbase⟩
    · rw [walk_no_eslintrc env s _ st (eq_false_of_ne_true hu)] at h
      obtain ⟨h1, h2⟩ := Prod.mk.injEq .. ▸ h
      subst h1
      subst h2
      exact ⟨hn, fun ca hca => by cases hca; exact hbase⟩
  | cons x d ih =>
    intro st st' r hn hcc h
    by_cases hu : s.useEslintrc = true
    · simp only [loadConfigInAncestorsRecursive, hu] at h
      rw [if_neg (by simp)] at h
      split at h
      · next ca heq =>
        obtain ⟨h1, h2⟩ := Prod.mk.injEq .. ▸ h
        subst h1
        subst h2
        exact ⟨hn, fun ca' hca => by
          cases hca; exact hcc _ _ (alistGet_mem _ _ _ heq)⟩
      · split at h
        · obtain ⟨h1, h2⟩ := Prod.mk.injEq .. ▸ h
          subst h1
          subst h2
          exact ⟨hn, fun ca hca => by cases hca; exact hbase⟩
        · split at h
          · split at h
            · obtain ⟨h1, h2⟩ := Prod.mk.injEq .. ▸ h
              subst h1
              subst h2
              exact ⟨hn, fun ca hca => by cases hca; exact hbase⟩
            · obtain ⟨h1, h2⟩ := Prod.mk.injEq .. ▸ h
              subst h1
              subst h2
              exact ⟨hn, fun ca hca => by simp at hca⟩
          · split at h
            · obtain ⟨h1, h2⟩ := Prod.mk.injEq .. ▸ h
              subst h1
              subst h2
              refine ⟨by first | omega | (dsimp only; omega), fun ca hca => ?_⟩
              cases hca
              first | omega | (dsimp only; omega)
            · split at h <;>
                (rcases hrec : loadConfigInAncestorsRecursive env s d
                    { st with nextId := st.nextId + 1 } with ⟨st2, er | parent⟩ <;>
                  simp only [hrec] at h)
              · obtain ⟨h1, h2⟩ := Prod.mk.injEq .. ▸ h
                subst h1
                subst h2
                obtain ⟨ha, hc⟩ := ih { st with nextId := st.nextId + 1 } st2 _
                  (by first | omega | (dsimp only; omega)) (fun p ca hm => hcc p ca hm)
                  hrec
                exact ⟨ha, fun ca hca => by simp at hca⟩
              · obtain ⟨h1, h2⟩ := Prod.mk.injEq .. ▸ h
                subst h1
                subst h2
                obtain ⟨ha, hc⟩ := ih { st with nextId := st.nextId + 1 } st2 _
                  (by first | omega | (dsimp only; omega)) (fun p ca hm => hcc p ca hm)
                  hrec
                refine ⟨by first | omega | (dsimp only; omega), fun ca hca => ?_⟩
                cases hca
                first | omega | (dsimp only; omega)
              · obtain ⟨h1, h2⟩ := Prod.mk.injEq .. ▸ h
                subst h1
                subst h2
                obtain ⟨ha, hc⟩ := ih { st with nextId := st.nextId + 1 } st2 _
                  (by first | omega | (dsimp only; omega)) (fun p ca hm => hcc p ca hm)
                  hrec
                exact ⟨ha, fun ca hca => by simp at hca⟩
              · obtain ⟨h1, h2⟩ := Prod.mk.injEq .. ▸ h
                subst h1
                subst h2
                obtain ⟨ha, hc⟩ := ih { st with nextId := st.nextId + 1 } st2 _
                  (by first | omega | (dsimp only; omega)) (fun p ca hm => hcc p ca hm)
                  hrec
                have hp := hc parent rfl
                refine ⟨by first | omega | (dsimp only at ha ⊢; omega),
                  fun ca hca => ?_⟩
                cases hca
                exact hp
    · rw [walk_no_eslintrc env s _ st (eq_false_of_ne_true hu)] at h
      obtain ⟨h1, h2⟩ := Prod.mk.injEq .. ▸ h
      subst h1
      subst h2
      exact ⟨hn, fun ca hca => by cases hca; exact hbase⟩

/-- Claim C3 (amended): `clearCache()` rebuilds the base and CLI config
arrays from the retained source data as fresh objects and clears the
per-directory config cache, but does not clear the finalize cache (the
source only calls `configCache.clear()`; the `WeakMap` finalize cache is
left as is).  The reference-equality consequence still holds: an array
returned after the clear is never reference-equal to one returned before,
because every post-clear array carries a fresh identity and the stale
finalize-cache entries can never be hit again. -/
theorem clearCache_spec (env : Env) (s s2 : Slots) (p p' : FsPath)
    (st st1 st2 st3 : EnumState) (r1 r2 : CAObj)
    (hb : s.baseConfigArray.id < st.nextId)
    (hcc : ∀ q ca, (q, ca) ∈ st.configCache → ca.id < st.nextId)
    (hfin : ∀ k ca, (k, ca) ∈ st.finalizeCache → k < st.nextId ∧ ca.id < st.nextId)
    (h1 : getConfigArrayForFile env s p st = (st1, .ok r1))
    (hclear : clearCache s st1 = (s2, st2))
    (h2 : getConfigArrayForFile env s2 p' st2 = (st3, .ok r2)) :
    s2 = { s with
             baseConfigArray := ⟨st1.nextId, s.baseConfigData⟩
             cliConfigArray := ⟨st1.nextId + 1, s.cliConfigData⟩ }
    ∧ st2 = { st1 with nextId := st1.nextId + 2, configCache := [] }
    ∧ st2.finalizeCache = st1.finalizeCache
    ∧ r2.id ≠ r1.id := by
  simp only [clearCache, createBaseConfigArray, createCLIConfigArray] at hclear
  obtain ⟨hs2, hst2⟩ := Prod.mk.injEq .. ▸ hclear
  subst hs2
  subst hst2
  rcases hw1 : loadConfigInAncestorsRecursive env s p st with ⟨sta, e1 | raw1⟩
  · simp only [getConfigArrayForFile, loadConfigInAncestors, hw1] at h1
    simp at h1
  · simp only [getConfigArrayForFile, loadConfigInAncestors, hw1] at h1
    obtain ⟨hwa, hwb, hwc⟩ := walk_id_bounds env s p st sta _ hb hcc hw1
    have hraw1 : raw1.id < sta.nextId := hwc raw1 rfl
    have hfina : ∀ k ca, (k, ca) ∈ sta.finalizeCache →
        k < sta.nextId ∧ ca.id < sta.nextId := by
      intro k ca hm
      rw [walk_preserves_finalizeCache env s p st sta _ hw1] at hm
      have := hfin k ca hm
      omega
    obtain ⟨hfa, hfb, hfc⟩ :=
      finalize_id_bounds env s raw1 (dirname p) sta st1 _ hraw1 hfina h1
    have hr1 : r1.id < st1.nextId := hfc r1 rfl
    rcases hw2 : loadConfigInAncestorsRecursive env
        { s with
            baseConfigArray := ⟨st1.nextId, s.baseConfigData⟩
            cliConfigArray := ⟨st1.nextId + 1, s.cliConfigData⟩ }
        p' { st1 with nextId := st1.nextId + 2, configCache := [] } with
      ⟨stb, e2 | raw2⟩
    · simp only [getConfigArrayForFile, loadConfigInAncestors, hw2] at h2
      simp at h2
    · simp only [getConfigArrayForFile, loadConfigInAncestors, hw2] at h2
      obtain ⟨hla, hlc⟩ := walk_id_lower env
          { s with
              baseConfigArray := ⟨st1.nextId, s.baseConfigData⟩
              cliConfigArray := ⟨st1.nextId + 1, s.cliConfigData⟩ }
          st1.nextId (by dsimp only; omega) p'
          { st1 with nextId := st1.nextId + 2, configCache := [] } stb _
          (by dsimp only; omega) (by intro q ca hm; simp at hm) hw2
      have hraw2 : st1.nextId ≤ raw2.id := hlc raw2 rfl
      have hfkeys : ∀ k ca, (k, ca) ∈ stb.finalizeCache → k < st1.nextId := by
        intro k ca hm
        rw [walk_preserves_finalizeCache env
            { s with
                baseConfigArray := ⟨st1.nextId, s.baseConfigData⟩
                cliConfigArray := ⟨st1.nextId + 1, s.cliConfigData⟩ }
            p' _ stb _ hw2] at hm
        exact (hfb k ca hm).1
      have hr2 : st1.nextId ≤ r2.id :=
        finalize_id_lower env _ st1.nextId raw2 (dirname p') stb st3 _
          hla hraw2 hfkeys h2 r2 rfl
      exact ⟨rfl, rfl, rfl, by omega⟩

/-- Claim C10 (amended): `getConfigArrayForFile` never inspects the target
file itself — for any two absolute paths with the same dirname and a
non-empty final component, the call behaves identically (state and result);
the path's existence on disk plays no role (the embedding of
`getConfigArrayForFile` involves no stat, matching the source).  The
restriction to a non-empty final component is forced by the filesystem
root: `dirname("/") = "/"` makes the walk treat `"/"` itself as already at
the root, unlike `"/x"`. -/
theorem getConfigArrayForFile_dirname_only (env : Env) (s : Slots)
    (a b : String) (d : FsPath) (st : EnumState) :
    getConfigArrayForFile env s (a :: d) st
      = getConfigArrayForFile env s (b :: d) st := by
  have hw : loadConfigInAncestorsRecursive env s (a :: d) st
      = loadConfigInAncestorsRecursive env s (b :: d) st := by
    simp only [loadConfigInAncestorsRecursive]
  simp only [getConfigArrayForFile, loadConfigInAncestors, dirname, hw]

/-- Counterexample to claim C10 as stated: the filesystem root `/` and the
file `/x` have the same `dirname` (`/`), yet `getConfigArrayForFile`
resolves them differently when a `root: true` config file sits at `/` —
for `/` the walk stops immediately with the base array, for `/x` it loads
the root directory's config. -/
theorem getConfigArrayForFile_dirname_only_cx :
    dirname ([] : FsPath) = dirname ["x"]
    ∧ (getConfigArrayForFile envX sX [] stX).2 = .ok ⟨0, [elemBase]⟩
    ∧ (getConfigArrayForFile envX sX ["x"] stX).2 = .ok ⟨2, [elemRoot]⟩
    ∧ (getConfigArrayForFile envX sX [] stX).2
        ≠ (getConfigArrayForFile envX sX ["x"] stX).2 := by
  refine ⟨rfl, rfl, rfl, ?_⟩
  intro hc
  rw [show (getConfigArrayForFile envX sX [] stX).2 = .ok ⟨0, [elemBase]⟩ from rfl,
    show (getConfigArrayForFile envX sX ["x"] stX).2 = .ok ⟨2, [elemRoot]⟩ from rfl]
    at hc
  simp [elemBase, elemRoot] at hc

/-- Counterexample to claim C3 as stated: `clearCache` empties the
per-directory config cache but leaves the finalize cache untouched. -/
theorem clearCache_not_clearing_finalize_cx :
    (clearCache sW stCX).2.finalizeCache = [(0, ⟨0, []⟩)]
    ∧ (clearCache sW stCX).2.finalizeCache ≠ []
    ∧ (clearCache sW stCX).2.configCache = [] := by
  refine ⟨rfl, ?_, rfl⟩
  intro hc
  rw [show (clearCache sW stCX).2.finalizeCache = [(0, ⟨0, []⟩)] from rfl] at hc
  simp at hc

/-- Witness for claim C1 at a concrete instance: `/d/a.js` and `/d/b.js`
share one array object. -/
theorem getConfigArrayForFile_same_dir_shared_witness : rW = rW ∧ st1W = st1W :=
  getConfigArrayForFile_same_dir_shared envW sW ["a", "d"] ["b", "d"]
    stW st1W st1W rW rW rfl rfl rfl

/-- Witness for claim C2 at a concrete instance: a pattern that matches
nothing raises `NoFilesFound` with `globDisabled` false. -/
theorem iterateFiles_pattern_errors_witness :
    iterateFiles envW sW iterEmptyW ["p"] stW
      = (stW, [], some (.noFilesFound "p" false)) :=
  (iterateFiles_pattern_errors envW sW iterEmptyW "p" stW (by decide)).1 rfl

/-- Witness for claim C3 (amended) at a concrete instance: the rebuilt
arrays, the cleared per-directory cache, the retained finalize cache, and
the fresh identity of the post-clear result. -/
theorem clearCache_spec_witness :
    s2W = { sW with
              baseConfigArray := ⟨st1W.nextId, sW.baseConfigData⟩
              cliConfigArray := ⟨st1W.nextId + 1, sW.cliConfigData⟩ }
    ∧ st2W = { st1W with nextId := st1W.nextId + 2, configCache := [] }
    ∧ st2W.finalizeCache = st1W.finalizeCache
    ∧ r2W.id ≠ rW.id :=
  clearCache_spec envW sW s2W ["a", "d"] ["a", "d"] stW st1W st2W st3W rW r2W
    (by decide) (fun q ca hm => absurd hm (List.not_mem_nil _))
    (fun k ca hm => absurd hm (List.not_mem_nil _)) rfl rfl rfl

/-- Witness for claim C4 at a concrete instance: a `root: true` config at
`/r` halts the walk for `/r/leaf`, and the resolved array for `/r/s/x`
draws only on `/r` and `/r/s`. -/
theorem walk_root_halts_cascade_witness :
    loadConfigInAncestorsRecursive env4 sW ["leaf", "r"] stW
      = ({ stW with
            nextId := stW.nextId + 1
            configCache := (["r"], (⟨stW.nextId, [elemR]⟩ : CAObj)) :: stW.configCache },
         .ok ⟨stW.nextId, [elemR]⟩)
    ∧ ∀ e ∈ (⟨2, [elemR, elemS]⟩ : CAObj).elems,
        e ∈ sW.baseConfigArray.elems ∨
        ∃ (p : FsPath) (elemsP : List ConfigElement) (rootP : Bool),
          ["r"] <:+ p ∧ p <:+ dirname ["x", "s", "r"] ∧
          env4.loadOnDirectory p = .ok elemsP rootP ∧ e ∈ elemsP :=
  walk_root_halts_cascade env4 sW ["r"] [elemR] "leaf" ["x", "s", "r"]
    stW stW ⟨4, [(["s", "r"], ⟨2, [elemR, elemS]⟩), (["r"], ⟨3, [elemR]⟩)], []⟩
    ⟨2, [elemR, elemS]⟩ rfl rfl (by simp) rfl (by decide)
    ⟨["s"], rfl⟩ (fun p _ _ => rfl) rfl

/-- Witness for claim C5 at a concrete instance: the walk stops at the home
directory (`cwd` differs from it) and caches the base array there. -/
theorem walk_stop_conditions_witness :
    loadConfigInAncestorsRecursive envW sW ["x", "home"] stW
      = ({ stW with
            configCache := (["home"], sW.baseConfigArray) :: stW.configCache },
         .ok sW.baseConfigArray) :=
  (walk_stop_conditions envW sW stW rfl).2.1 "x" ["home"] rfl rfl (by decide)

/-- Witness for claim C6 at a concrete instance: with no file-backed
element anywhere, finalization invokes the home-directory load, whose
failure surfaces. -/
theorem finalize_personal_config_iff_witness :
    finalizeConfigArray env6 sW raw6 ["d"] stW = (stW, .error (.loader "EHOME")) :=
  ((finalize_personal_config_iff env6 sW raw6 ["d"] stW rfl).1
    (by decide)).1 "EHOME" rfl

/-- Witness for claim C7 at a concrete instance: a cache hit on an empty
finalized array fails `ConfigurationNotFound` with `useEslintrc` on. -/
theorem finalize_cnf_iff_witness :
    finalizeConfigArray envW sW raw7 ["d"] st7W
      = (st7W, .error (.configurationNotFound ["d"])) :=
  (finalize_cnf_iff envW sW raw7 ["d"] st7W []).2.1 ⟨6, []⟩ rfl rfl rfl

/-- Witness for claim C8 at a concrete instance: an `EACCES` failure on
`/d` is swallowed and the base array cached there. -/
theorem walk_eacces_fallback_witness :
    loadConfigInAncestorsRecursive env8 sW ["a", "d"] stW
      = ({ stW with
            configCache := (["d"], sW.baseConfigArray) :: stW.configCache },
         .ok sW.baseConfigArray) :=
  (walk_eacces_fallback env8 sW stW "a" ["d"] rfl rfl (by decide)).1 rfl

/-- Witness for claim C9 at a concrete instance: the parser becomes its
file path and the plugin ids come out in reverse insertion order. -/
theorem extractedConfig_toCompat_spec_witness :
    (toCompatibleObjectAsConfigFileContent ecW).parser = some "/p.js"
    ∧ (toCompatibleObjectAsConfigFileContent ecW).plugins = ["b", "a"] :=
  ⟨(extractedConfig_toCompat_spec ecW).1.2 ⟨"p", "/p.js"⟩ rfl,
   (extractedConfig_toCompat_spec ecW).2.1.trans rfl⟩
